import Mathlib

/-!
Verification of the topic-inference engine of the faculty-publications
dashboard (source files `topicRules.js` and `FacultyPubsDashboard.jsx`).

The JavaScript code is shallowly embedded: strings are `String`/`List Char`,
the regex-based rewriting steps are translated into explicit structural
scanners with the same observable behaviour (leftmost, non-overlapping
global matching, greedy quantifiers), JS `Array.prototype.sort` (a stable
sort under a consistent comparator) is modelled by `List.insertionSort`,
and insertion-ordered JS objects are modelled by association lists.
`String.prototype.toLowerCase` is modelled by ASCII case folding
(`Char.toLower`); no property below depends on non-ASCII case mapping.
The regex *tables* (`TOKENS`, `DOI_HINTS`, `AUTHOR_HINTS`, `KEYWORDS`)
are data; they are modelled as an abstract `Rules` bundle whose individual
matchers are opaque boolean tests carrying their source text and category,
exactly as the scoring engine consumes them.
-/

namespace FacPub

/-! ### JS string primitives -/

/-- The JS regex class `\s` (also the set trimmed by `String.prototype.trim`). -/
def isJsWs (c : Char) : Bool :=
  c = ' ' || c = '\t' || c = '\n' || c = '\r' ||
  c = Char.ofNat 0x0b || c = Char.ofNat 0x0c ||
  c = Char.ofNat 0xa0 || c = Char.ofNat 0x1680 ||
  (Char.ofNat 0x2000 ≤ c && c ≤ Char.ofNat 0x200a) ||
  c = Char.ofNat 0x2028 || c = Char.ofNat 0x2029 || c = Char.ofNat 0x202f ||
  c = Char.ofNat 0x205f || c = Char.ofNat 0x3000 || c = Char.ofNat 0xfeff

/-- ASCII lower-casing of a character list (model of `toLowerCase`). -/
def lcL (l : List Char) : List Char := l.map Char.toLower

/-- JS `String.prototype.trim`: drop `\s` characters from both ends. -/
def jsTrim (l : List Char) : List Char :=
  ((l.dropWhile isJsWs).reverse.dropWhile isJsWs).reverse

/-- State machine for the global replace `\s+` → `" "`: `prevWs` records
whether the previous character belonged to the current whitespace run. -/
def collapseWsAux : Bool → List Char → List Char
  | _, [] => []
  | prevWs, c :: rest =>
    if isJsWs c then
      if prevWs then collapseWsAux true rest
      else ' ' :: collapseWsAux true rest
    else c :: collapseWsAux false rest

/-- Global replace of every maximal `\s+` run by a single space. -/
def collapseWs (l : List Char) : List Char := collapseWsAux false l

/-- Global, leftmost, non-overlapping replacement of the literal pattern `p`
by `r` (JS `replace(/p/g, r)` for a literal pattern).  The `skip` counter
carries the number of characters of a match still to be consumed, which
keeps the recursion structural. -/
def replaceAllAux (p r : List Char) : Nat → List Char → List Char
  | _ + 1, [] => []
  | skip + 1, _ :: rest => replaceAllAux p r skip rest
  | 0, [] => []
  | 0, c :: rest =>
    if p.isPrefixOf (c :: rest) then
      r ++ (match p.length with
        | n + 1 => replaceAllAux p r n rest
        | 0 => c :: replaceAllAux p r 0 rest)
    else c :: replaceAllAux p r 0 rest

/-- Wrapper for `replaceAllAux` starting outside of any match. -/
def replaceAllL (p r l : List Char) : List Char := replaceAllAux p r 0 l

/-- Global, leftmost deletion of every match of an abstract anchored matcher
`m` (`m t` returns the length of a match starting at the head of `t`, if
any); models `replace(/pat/g, "")`.  A zero-length answer is treated as no
match (the matchers below never return `some 0`). -/
def replaceMatchesAux (m : List Char → Option Nat) : Nat → List Char → List Char
  | _ + 1, [] => []
  | skip + 1, _ :: rest => replaceMatchesAux m skip rest
  | 0, [] => []
  | 0, c :: rest =>
    match m (c :: rest) with
    | some (n + 1) => replaceMatchesAux m n rest
    | _ => c :: replaceMatchesAux m 0 rest

/-- Wrapper for `replaceMatchesAux` starting outside of any match. -/
def replaceMatchesL (m : List Char → Option Nat) (l : List Char) : List Char :=
  replaceMatchesAux m 0 l

/-- Scan for the literal `p` occurring anywhere in `l`. -/
def containsSubL (p : List Char) : List Char → Bool
  | [] => p.isPrefixOf []
  | c :: rest => p.isPrefixOf (c :: rest) || containsSubL p rest

/-! ### The normalizer `clean` of topicRules.js

`clean` lower-cases and then applies, in order: the two URL-stripping
global replaces, the anchored protocol strip, three character-class
normalizations (dashes, double quotes, single quotes), three HTML-entity
replaces, whitespace collapsing, and a trim. -/

/-- Length of a match of `https?:\/\/(qe2a-[^\/]+|library-proxy\.[^\/]+)\/login\?url=`
anchored at the head of `l`, if any.  Since `[^\/]+` cannot cross a `/`
and the continuation `/login?url=` starts with `/`, the greedy run is
forced to the first `/`. -/
def matchProxyAt (l : List Char) : Option Nat :=
  let proto : Option (Nat × List Char) :=
    if ("https://".data).isPrefixOf l then some (8, l.drop 8)
    else if ("http://".data).isPrefixOf l then some (7, l.drop 7)
    else none
  match proto with
  | none => none
  | some (n1, rest) =>
    let host : Option Nat :=
      if ("qe2a-".data).isPrefixOf rest then some 5
      else if ("library-proxy.".data).isPrefixOf rest then some 14
      else none
    match host with
    | none => none
    | some hp =>
      let rest2 := rest.drop hp
      let w := rest2.takeWhile (fun c => c ≠ '/')
      if w.isEmpty then none
      else if ("/login?url=".data).isPrefixOf (rest2.drop w.length) then
        some (n1 + hp + w.length + 11)
      else none

/-- Length of a match of `https?:\/\/(dx\.)?doi\.org\/` anchored at the
head of `l`, if any. -/
def matchDoiOrgAt (l : List Char) : Option Nat :=
  let proto : Option (Nat × List Char) :=
    if ("https://".data).isPrefixOf l then some (8, l.drop 8)
    else if ("http://".data).isPrefixOf l then some (7, l.drop 7)
    else none
  match proto with
  | none => none
  | some (n1, rest) =>
    if ("dx.".data).isPrefixOf rest && ("doi.org/".data).isPrefixOf (rest.drop 3) then
      some (n1 + 3 + 8)
    else if ("doi.org/".data).isPrefixOf rest then some (n1 + 8)
    else none

/-- The anchored replace `^https?:\/\//g` removes a single protocol scheme
at the start of the string (with no `m` flag, `^` only matches position 0,
and after one replacement the scan position has moved past 0). -/
def stripLeadProtocol (l : List Char) : List Char :=
  if ("https://".data).isPrefixOf l then l.drop 8
  else if ("http://".data).isPrefixOf l then l.drop 7
  else l

/-- Membership in the regex class `[‐-―]` (Unicode dashes). -/
def isDashRange (c : Char) : Bool :=
  Char.ofNat 0x2010 ≤ c && c ≤ Char.ofNat 0x2015

/-- Membership in `[“”]` (curly double quotes). -/
def isCurlyDq (c : Char) : Bool := c = Char.ofNat 0x201c || c = Char.ofNat 0x201d

/-- Membership in `[‘’]` (curly single quotes). -/
def isCurlySq (c : Char) : Bool := c = Char.ofNat 0x2018 || c = Char.ofNat 0x2019

/-- Replace `[‐-―]` by `-`. -/
def dashToHyphen (c : Char) : Char := if isDashRange c then '-' else c

/-- Replace `[“”]` by `"`. -/
def curlyDqToQuote (c : Char) : Char := if isCurlyDq c then '"' else c

/-- Replace `[‘’]` by an ASCII apostrophe. -/
def curlySqToQuote (c : Char) : Char := if isCurlySq c then '\'' else c

/-- `clean` from topicRules.js on character lists, replicating the replace
chain in source order. -/
def cleanL (l : List Char) : List Char :=
  let s0 := lcL l
  let s1 := replaceMatchesL matchProxyAt s0
  let s2 := replaceMatchesL matchDoiOrgAt s1
  let s3 := stripLeadProtocol s2
  let s4 := s3.map dashToHyphen
  let s5 := s4.map curlyDqToQuote
  let s6 := s5.map curlySqToQuote
  let s7 := replaceAllL ("&amp;".data) ("&".data) s6
  let s8 := replaceAllL ("&quot;".data) ("\"".data) s7
  let s9 := replaceAllL ("&#39;".data) ['\''] s8
  let s10 := collapseWs s9
  jsTrim s10

/-- `lc` from topicRules.js (modulo ASCII case folding). -/
def lc (s : String) : String := ⟨lcL s.data⟩

/-- `clean` from topicRules.js. -/
def clean (s : String) : String := ⟨cleanL s.data⟩

/-! ### Stability of `clean`

`clean` is not idempotent in general: deleting one occurrence of a pattern
can concatenate the surrounding characters into a fresh occurrence (e.g.
`clean "&amp;amp;" = "&amp;"`).  `CleanStable y` says that `y` contains no
substring that any pass of `clean` rewrites; on such strings `clean` is the
identity, which yields the conditional idempotence theorem. -/

/-- A string none of whose characters or substrings are rewritten by any
pass of `clean`: already lower-case, no `http://`/`https://` occurrence
(hence no proxy-, DOI-resolver- or protocol-strip applies), no Unicode
dash or curly quote, no HTML entity, all whitespace single internal
spaces. -/
def CleanStable (y : String) : Prop :=
  (∀ c ∈ y.data, Char.toLower c = c) ∧
  containsSubL ("http://".data) y.data = false ∧
  containsSubL ("https://".data) y.data = false ∧
  containsSubL ("&amp;".data) y.data = false ∧
  containsSubL ("&quot;".data) y.data = false ∧
  containsSubL ("&#39;".data) y.data = false ∧
  (∀ c ∈ y.data, isDashRange c = false ∧ isCurlyDq c = false ∧ isCurlySq c = false) ∧
  (∀ c ∈ y.data, isJsWs c = true → c = ' ') ∧
  containsSubL [' ', ' '] y.data = false ∧
  y.data.head?.all (fun c => !isJsWs c) = true ∧
  y.data.getLast?.all (fun c => !isJsWs c) = true

instance (y : String) : Decidable (CleanStable y) := by
  unfold CleanStable; infer_instance

theorem containsSubL_cons_false {p : List Char} {c : Char} {rest : List Char}
    (h : containsSubL p (c :: rest) = false) :
    p.isPrefixOf (c :: rest) = false ∧ containsSubL p rest = false := by
  simpa [containsSubL] using h

theorem replaceAllAux_zero_of_not_contains (p r : List Char) :
    ∀ l : List Char, containsSubL p l = false → replaceAllAux p r 0 l = l := by
  intro l
  induction l with
  | nil => intro _; rfl
  | cons c rest ih =>
    intro h
    obtain ⟨h1, h2⟩ := containsSubL_cons_false h
    simp [replaceAllAux, h1, ih h2]

theorem replaceMatchesAux_zero_of_none (m : List Char → Option Nat) :
    ∀ l : List Char, (∀ t : List Char, t <:+ l → m t = none) →
    replaceMatchesAux m 0 l = l := by
  intro l
  induction l with
  | nil => intro _; rfl
  | cons c rest ih =>
    intro h
    have hc : m (c :: rest) = none := h _ (List.suffix_refl _)
    have hr : replaceMatchesAux m 0 rest = rest :=
      ih (fun t ht => h t (ht.trans (List.suffix_cons c rest)))
    simp [replaceMatchesAux, hc, hr]

theorem containsSubL_of_prefix_suffix {p t l : List Char}
    (hp : p.isPrefixOf t = true) (hs : t <:+ l) : containsSubL p l = true := by
  induction l with
  | nil =>
    have : t = [] := List.suffix_nil.mp hs
    subst this
    simpa [containsSubL] using hp
  | cons c rest ih =>
    rcases List.suffix_cons_iff.mp hs with h | h
    · subst h; simp [containsSubL, hp]
    · simp [containsSubL, ih h]

theorem matchProxyAt_some_protocol {t : List Char} {n : Nat}
    (h : matchProxyAt t = some n) :
    ("http://".data).isPrefixOf t = true ∨ ("https://".data).isPrefixOf t = true := by
  by_cases h1 : ("https://".data).isPrefixOf t = true
  · exact Or.inr h1
  · by_cases h2 : ("http://".data).isPrefixOf t = true
    · exact Or.inl h2
    · exfalso
      simp [matchProxyAt, h1, h2] at h

theorem matchDoiOrgAt_some_protocol {t : List Char} {n : Nat}
    (h : matchDoiOrgAt t = some n) :
    ("http://".data).isPrefixOf t = true ∨ ("https://".data).isPrefixOf t = true := by
  by_cases h1 : ("https://".data).isPrefixOf t = true
  · exact Or.inr h1
  · by_cases h2 : ("http://".data).isPrefixOf t = true
    · exact Or.inl h2
    · exfalso
      simp [matchDoiOrgAt, h1, h2] at h

theorem map_eq_self_of_fix {f : Char → Char} {l : List Char}
    (h : ∀ c ∈ l, f c = c) : l.map f = l := by
  rw [List.map_congr_left h]; simp

theorem collapseWsAux_eq_self :
    ∀ (l : List Char), (∀ c ∈ l, isJsWs c = true → c = ' ') →
    containsSubL [' ', ' '] l = false →
    ∀ prev : Bool, (prev = true → l.head?.all (fun c => !isJsWs c) = true) →
    collapseWsAux prev l = l := by
  intro l
  induction l with
  | nil => intro _ _ prev _; cases prev <;> rfl
  | cons c rest ih =>
    intro hsp hdd prev hprev
    obtain ⟨hd1, hd2⟩ := containsSubL_cons_false hdd
    by_cases hws : isJsWs c = true
    · have hc : c = ' ' := hsp c (by simp) hws
      have hpf : prev = false := by
        cases prev with
        | false => rfl
        | true => simpa [hws] using hprev rfl
      have hresthead : rest.head?.all (fun d => !isJsWs d) = true := by
        cases rest with
        | nil => rfl
        | cons d rest' =>
          by_cases hdws : isJsWs d = true
          · exfalso
            have hd : d = ' ' := hsp d (by simp) hdws
            subst hc; subst hd
            simp [List.isPrefixOf, List.IsPrefix] at hd1
          · simpa using hdws
      have := ih (fun d hd => hsp d (by simp [hd])) hd2 true (fun _ => hresthead)
      subst hpf
      subst hc
      simp [collapseWsAux, hws, this]
    · have := ih (fun d hd => hsp d (by simp [hd])) hd2 false (by simp)
      cases prev <;> simp [collapseWsAux, hws, this]

theorem dropWhile_eq_self_of_head {l : List Char}
    (h : l.head?.all (fun c => !isJsWs c) = true) : l.dropWhile isJsWs = l := by
  cases l with
  | nil => rfl
  | cons c rest =>
    have : isJsWs c = false := by simpa using h
    simp [List.dropWhile, this]

theorem jsTrim_eq_self {l : List Char}
    (hh : l.head?.all (fun c => !isJsWs c) = true)
    (hl : l.getLast?.all (fun c => !isJsWs c) = true) : jsTrim l = l := by
  unfold jsTrim
  rw [dropWhile_eq_self_of_head hh]
  rw [dropWhile_eq_self_of_head (by simpa [List.head?_reverse] using hl)]
  exact List.reverse_reverse l

theorem clean_eq_self_of_cleanStable (y : String) (h : CleanStable y) : clean y = y := by
  obtain ⟨hlc, hhttp, hhttps, hamp, hquot, h39, hchars, hws, hdd, hh, hl⟩ := h
  have e0 : lcL y.data = y.data := map_eq_self_of_fix hlc
  have e1 : replaceMatchesL matchProxyAt y.data = y.data := by
    apply replaceMatchesAux_zero_of_none
    intro t ht
    cases hm : matchProxyAt t with
    | none => rfl
    | some n =>
      exfalso
      rcases matchProxyAt_some_protocol hm with hp | hp
      · rw [containsSubL_of_prefix_suffix hp ht] at hhttp; exact Bool.noConfusion hhttp
      · rw [containsSubL_of_prefix_suffix hp ht] at hhttps; exact Bool.noConfusion hhttps
  have e2 : replaceMatchesL matchDoiOrgAt y.data = y.data := by
    apply replaceMatchesAux_zero_of_none
    intro t ht
    cases hm : matchDoiOrgAt t with
    | none => rfl
    | some n =>
      exfalso
      rcases matchDoiOrgAt_some_protocol hm with hp | hp
      · rw [containsSubL_of_prefix_suffix hp ht] at hhttp; exact Bool.noConfusion hhttp
      · rw [containsSubL_of_prefix_suffix hp ht] at hhttps; exact Bool.noConfusion hhttps
  have e3 : stripLeadProtocol y.data = y.data := by
    unfold stripLeadProtocol
    have p1 : ("https://".data).isPrefixOf y.data = false := by
      cases hp : ("https://".data).isPrefixOf y.data with
      | false => rfl
      | true =>
        rw [containsSubL_of_prefix_suffix hp (List.suffix_refl _)] at hhttps
        exact Bool.noConfusion hhttps
    have p2 : ("http://".data).isPrefixOf y.data = false := by
      cases hp : ("http://".data).isPrefixOf y.data with
      | false => rfl
      | true =>
        rw [containsSubL_of_prefix_suffix hp (List.suffix_refl _)] at hhttp
        exact Bool.noConfusion hhttp
    simp [p1, p2]
  have e4 : y.data.map dashToHyphen = y.data :=
    map_eq_self_of_fix (fun c hc => by simp [dashToHyphen, (hchars c hc).1])
  have e5 : y.data.map curlyDqToQuote = y.data :=
    map_eq_self_of_fix (fun c hc => by simp [curlyDqToQuote, (hchars c hc).2.1])
  have e6 : y.data.map curlySqToQuote = y.data :=
    map_eq_self_of_fix (fun c hc => by simp [curlySqToQuote, (hchars c hc).2.2])
  have e7 : replaceAllL ("&amp;".data) ("&".data) y.data = y.data :=
    replaceAllAux_zero_of_not_contains _ _ _ hamp
  have e8 : replaceAllL ("&quot;".data) ("\"".data) y.data = y.data :=
    replaceAllAux_zero_of_not_contains _ _ _ hquot
  have e9 : replaceAllL ("&#39;".data) ['\''] y.data = y.data :=
    replaceAllAux_zero_of_not_contains _ _ _ h39
  have e10 : collapseWs y.data = y.data :=
    collapseWsAux_eq_self y.data hws hdd false (by simp)
  have e11 : jsTrim y.data = y.data := jsTrim_eq_self hh hl
  show (⟨cleanL y.data⟩ : String) = y
  simp only [cleanL, replaceMatchesL, replaceAllL] at *
  rw [e0, e1, e2, e3, e4, e5, e6, e7, e8, e9, e10, e11]

/-- C7 (counterexample): the text normalizer is not idempotent.  Removing
the entity `&amp;` from `"&amp;amp;"` concatenates the remnants into a new
occurrence of `&amp;`, which a second pass rewrites again. -/
theorem clean_double_apply_shrinks :
    clean (clean "&amp;amp;") ≠ clean "&amp;amp;" := by decide

/-- C7 (amended): the text normalizer is idempotent on every input whose
cleaned form contains no substring that `clean` rewrites — no
`http://`/`https://` occurrence (so no proxy/DOI-resolver/protocol strip
applies), no `&amp;`/`&quot;`/`&#39;` entity, no Unicode dash or curly
quote, already lower-case, and whitespace already collapsed and trimmed.
In general a second application can change the string further
(`clean_double_apply_shrinks`). -/
theorem clean_idempotent_of_cleanStable (x : String)
    (h : CleanStable (clean x)) : clean (clean x) = clean x :=
  clean_eq_self_of_cleanStable (clean x) h

/-- Witness for `clean_idempotent_of_cleanStable` at the concrete input
`"Hello  World"`, whose cleaned form `"hello world"` is stable. -/
theorem clean_idempotent_witness :
    CleanStable (clean "Hello  World") ∧
    clean (clean "Hello  World") = clean "Hello  World" :=
  ⟨by decide, clean_idempotent_of_cleanStable "Hello  World" (by decide)⟩

/-! ### String helpers of FacultyPubsDashboard.jsx -/

/-- `squashSpaces`: collapse `\s+` runs to one space and trim. -/
def squashSpaces (s : String) : String := ⟨jsTrim (collapseWs s.data)⟩

/-- `normalizeDashesQuotes`: Unicode dashes to `-`, curly single quotes to
an ASCII apostrophe, curly double quotes to `"` (in source order). -/
def normalizeDashesQuotes (s : String) : String :=
  ⟨((s.data.map dashToHyphen).map curlySqToQuote).map curlyDqToQuote⟩

/-- `cleanText = squashSpaces ∘ normalizeDashesQuotes`. -/
def cleanText (s : String) : String := squashSpaces (normalizeDashesQuotes s)

/-- The JS regex class `\w`. -/
def isWordChar (c : Char) : Bool :=
  ('a' ≤ c && c ≤ 'z') || ('A' ≤ c && c ≤ 'Z') || ('0' ≤ c && c ≤ '9') || c = '_'

/-- Whole-suffix test for `et\s*al\.?$` (case-insensitive), i.e. the part
of `\bet\s*al\.?$/i` after its word boundary. -/
def etAlTail (l : List Char) : Bool :=
  match l with
  | c1 :: c2 :: rest =>
    if c1.toLower = 'e' && c2.toLower = 't' then
      match rest.dropWhile isJsWs with
      | c3 :: c4 :: r3 =>
        c3.toLower = 'a' && c4.toLower = 'l' && (r3 = [] || r3 = ['.'])
      | _ => false
    else false
  | _ => false

/-- The (non-global) replace of the first match of `\bet\s*al\.?$/i` by the
empty string: scan left to right for the first position with a word
boundary where the rest of the string matches `et\s*al\.?$`; since the
match is anchored at the end, everything from there on is dropped. -/
def stripEtAlAux : Option Char → List Char → List Char
  | _, [] => []
  | prev, c :: rest =>
    let boundary := match prev with
      | none => true
      | some p => !isWordChar p
    if boundary && etAlTail (c :: rest) then []
    else c :: stripEtAlAux (some c) rest

/-- Wrapper for `stripEtAlAux` starting at string position 0. -/
def stripEtAl (l : List Char) : List Char := stripEtAlAux none l

/-- Generic model of `String.prototype.split` with a regex separator:
`sepAt` reports the length of a separator match anchored at the head of
the remaining input (leftmost, non-overlapping scan; a zero-length answer
is treated as no match — the separators below always have length ≥ 1).
`cur` accumulates the current part in reverse; `skip` consumes the tail of
a separator match. -/
def splitAux (sepAt : List Char → Option Nat) : Nat → List Char → List Char → List (List Char)
  | _ + 1, cur, [] => [cur.reverse]
  | skip + 1, cur, _ :: rest => splitAux sepAt skip cur rest
  | 0, cur, [] => [cur.reverse]
  | 0, cur, c :: rest =>
    match sepAt (c :: rest) with
    | some (n + 1) => cur.reverse :: splitAux sepAt n [] rest
    | _ => splitAux sepAt 0 (c :: cur) rest

/-- Anchored separator match for `_splitByConj`'s split pattern
`/;|,|\||\/|\s+and\s+|\s*&\s*|—|–|:|\s{2,}/i`, trying the alternatives in
source order.  The greedy `\s`-quantifiers around `and` and `&` must take
the whole whitespace run since neither `a` nor `&` is whitespace. -/
def sepConjAt (l : List Char) : Option Nat :=
  match l with
  | [] => none
  | c :: _ =>
    if c = ';' then some 1
    else if c = ',' then some 1
    else if c = '|' then some 1
    else if c = '/' then some 1
    else
      let w1 := l.takeWhile isJsWs
      let andBranch : Option Nat :=
        if w1.isEmpty then none
        else
          match l.drop w1.length with
          | a :: n :: d :: r2 =>
            if a.toLower = 'a' && n.toLower = 'n' && d.toLower = 'd' then
              let w2 := r2.takeWhile isJsWs
              if w2.isEmpty then none else some (w1.length + 3 + w2.length)
            else none
          | _ => none
      match andBranch with
      | some n => some n
      | none =>
        match l.drop w1.length with
        | '&' :: r2 => some (w1.length + 1 + (r2.takeWhile isJsWs).length)
        | _ =>
          if c = Char.ofNat 0x2014 then some 1
          else if c = Char.ofNat 0x2013 then some 1
          else if c = ':' then some 1
          else if 2 ≤ w1.length then some w1.length
          else none

/-- `_splitByConj` from FacultyPubsDashboard.jsx: clean, strip a trailing
`et al.`, split on conjunction/separator punctuation, squash each part,
drop empties. -/
def _splitByConj (s : String) : List String :=
  ((splitAux sepConjAt 0 [] (stripEtAl (cleanText s).data)).map
    (fun p => squashSpaces ⟨p⟩)).filter (fun x => x ≠ "")

/-- Anchored separator match for the split pattern `/\s*,\s*/`. -/
def sepCommaAt (l : List Char) : Option Nat :=
  let w1 := l.takeWhile isJsWs
  match l.drop w1.length with
  | ',' :: r2 => some (w1.length + 1 + (r2.takeWhile isJsWs).length)
  | _ => none

/-- ASCII upper-case letter. -/
def isUpperAZ (c : Char) : Bool := 'A' ≤ c && c ≤ 'Z'

/-- ASCII lower-case letter. -/
def isLowerAZ (c : Char) : Bool := 'a' ≤ c && c ≤ 'z'

/-- ASCII letter. -/
def isAsciiLetter (c : Char) : Bool := isLowerAZ c || isUpperAZ c

/-- The regex class `[a-zA-Z'’\-]` of the personal-name shape. -/
def isNamePartChar (c : Char) : Bool :=
  isAsciiLetter c || c = '\'' || c = Char.ofNat 0x2019 || c = '-'

/-- Tail of the personal-name regex after its whitespace: `[A-Z]{1,3}\.?$`
(one to three capital initials, optionally a final dot, end of string). -/
def initialsTail (l : List Char) : Bool :=
  let core := match l.getLast? with
    | some '.' => l.dropLast
    | _ => l
  decide (1 ≤ core.length) && decide (core.length ≤ 3) && core.all isUpperAZ

/-- The anchored personal-name regex
`^[A-Z][a-zA-Z'’\-]+(?:\s+[A-Z]{1,3}\.?)?$` of `looksLikeAuthorList`.
After the mandatory name-character run (which cannot contain whitespace),
either the string ends or the optional initials group must consume the
rest. -/
def nameShape (p : List Char) : Bool :=
  match p with
  | [] => false
  | c :: rest =>
    if !isUpperAZ c then false
    else
      let run := rest.takeWhile isNamePartChar
      if run.isEmpty then false
      else
        match rest.drop run.length with
        | [] => true
        | rem =>
          let w := rem.takeWhile isJsWs
          if w.isEmpty then false
          else initialsTail (rem.drop w.length)

/-- `looksLikeAuthorList` from FacultyPubsDashboard.jsx.  JS computes the
threshold as `Math.floor(parts.length * 0.6)`; for every list length `n`
below 2^50 the double-precision product `n * 0.6` rounds to a value with
the same floor as the rational `3n/5` (the relative error of the literal
`0.6` is below half an ulp), so the threshold is modelled as `3 * n / 5`
in exact arithmetic. -/
def looksLikeAuthorList (s : String) : Bool :=
  let str := cleanText s
  if str = "" then false
  else
    let parts := (splitAux sepCommaAt 0 [] str.data).filter (fun p => p ≠ [])
    if parts.length < 2 then false
    else
      let signal := parts.countP nameShape
      decide (max 2 (3 * parts.length / 5) ≤ signal)

/-- Scan for a run of at least three ASCII lower-case letters
(`/[a-z]{3,}/.test`). -/
def hasLowerRun3 : List Char → Bool
  | a :: b :: c :: rest =>
    (isLowerAZ a && isLowerAZ b && isLowerAZ c) || hasLowerRun3 (b :: c :: rest)
  | _ => false

/-- Result record of `fixTitleAndAuthors`. -/
structure FixResult where
  title : String
  venue : String
  authors : List String
deriving DecidableEq

/-- `fixTitleAndAuthors` from FacultyPubsDashboard.jsx.  (JS `length` counts
UTF-16 code units; the embedding counts characters, which agrees on all
Basic-Multilingual-Plane text.) -/
def fixTitleAndAuthors (rawTitle rawVenue : String) (authors : List String) : FixResult :=
  let title := cleanText rawTitle
  let venue := cleanText rawVenue
  let venueLooksLikeTitle := decide (12 < venue.length) && hasLowerRun3 venue.data
  if authors.isEmpty && looksLikeAuthorList title then
    let outAuthors := _splitByConj title
    if venueLooksLikeTitle then ⟨venue, "", outAuthors⟩
    else ⟨title, venue, outAuthors⟩
  else ⟨title, venue, authors⟩

/-! ### Idempotence of `cleanText` -/

theorem mem_collapseWsAux {c : Char} :
    ∀ (prev : Bool) (l : List Char), c ∈ collapseWsAux prev l →
      c = ' ' ∨ (c ∈ l ∧ isJsWs c = false) := by
  intro prev l
  induction l generalizing prev with
  | nil => intro h; simp [collapseWsAux] at h
  | cons d rest ih =>
    intro h
    by_cases hws : isJsWs d = true
    · cases prev with
      | true =>
        simp only [collapseWsAux, hws, if_true] at h
        rcases ih true h with h' | ⟨hm, hnw⟩
        · exact Or.inl h'
        · exact Or.inr ⟨by simp [hm], hnw⟩
      | false =>
        simp [collapseWsAux, hws] at h
        rcases h with h | h
        · exact Or.inl h
        · rcases ih true h with h' | ⟨hm, hnw⟩
          · exact Or.inl h'
          · exact Or.inr ⟨by simp [hm], hnw⟩
    · have hws' : isJsWs d = false := by simpa using hws
      simp [collapseWsAux, hws'] at h
      rcases h with h | h
      · subst h; exact Or.inr ⟨by simp, hws'⟩
      · rcases ih false h with h' | ⟨hm, hnw⟩
        · exact Or.inl h'
        · exact Or.inr ⟨by simp [hm], hnw⟩

theorem collapseWsAux_true_head :
    ∀ l : List Char, (collapseWsAux true l).head?.all (fun c => !isJsWs c) = true := by
  intro l
  induction l with
  | nil => rfl
  | cons d rest ih =>
    by_cases hws : isJsWs d = true
    · simpa [collapseWsAux, hws] using ih
    · have hws' : isJsWs d = false := by simpa using hws
      simp [collapseWsAux, hws']

theorem not_two_space_prefix {X : List Char}
    (hX : X.head?.all (fun c => !isJsWs c) = true) :
    ([' ', ' '].isPrefixOf (' ' :: X)) = false := by
  cases X with
  | nil => rfl
  | cons d rest =>
    have hd : isJsWs d = false := by simpa using hX
    have hd' : d ≠ ' ' := by
      intro h; subst h; simp [isJsWs] at hd
    have hd'' : ¬(' ' = d) := fun h => hd' h.symm
    simp [List.isPrefixOf, hd'']

theorem collapseWsAux_no_double :
    ∀ (prev : Bool) (l : List Char),
      containsSubL [' ', ' '] (collapseWsAux prev l) = false := by
  intro prev l
  induction l generalizing prev with
  | nil => cases prev <;> rfl
  | cons d rest ih =>
    by_cases hws : isJsWs d = true
    · cases prev with
      | true => simpa [collapseWsAux, hws] using ih true
      | false =>
        have hhead := collapseWsAux_true_head rest
        simp [collapseWsAux, hws, containsSubL, not_two_space_prefix hhead, ih true]
    · have hws' : isJsWs d = false := by simpa using hws
      have hd' : d ≠ ' ' := by
        intro h; subst h; simp [isJsWs] at hws'
      have hd'' : ¬(' ' = d) := fun h => hd' h.symm
      cases prev <;>
        simp [collapseWsAux, hws', containsSubL, List.isPrefixOf, hd'', ih false]

theorem dropWhile_head_not (p : Char → Bool) :
    ∀ l : List Char, (l.dropWhile p).head?.all (fun c => !p c) = true := by
  intro l
  induction l with
  | nil => rfl
  | cons d rest ih =>
    by_cases hp : p d = true
    · simpa [List.dropWhile, hp] using ih
    · have hp' : p d = false := by simpa using hp
      simp [List.dropWhile, hp']

theorem jsTrim_prefix (l : List Char) : jsTrim l <+: l.dropWhile isJsWs := by
  unfold jsTrim
  apply List.reverse_suffix.mp
  rw [List.reverse_reverse]
  exact List.dropWhile_suffix isJsWs

theorem jsTrim_midSub (l : List Char) : jsTrim l <:+: l :=
  List.infix_iff_prefix_suffix.mpr
    ⟨l.dropWhile isJsWs, jsTrim_prefix l, List.dropWhile_suffix isJsWs⟩

theorem mem_jsTrim {c : Char} {l : List Char} (h : c ∈ jsTrim l) : c ∈ l :=
  (jsTrim_midSub l).sublist.mem h

theorem jsTrim_head (l : List Char) :
    (jsTrim l).head?.all (fun c => !isJsWs c) = true := by
  obtain ⟨t, ht⟩ := jsTrim_prefix l
  cases hj : jsTrim l with
  | nil => rfl
  | cons c rest =>
    have h1 : (l.dropWhile isJsWs).head? = some c := by
      rw [← ht, hj, List.head?_append_of_ne_nil _ (by simp)]
      rfl
    have := dropWhile_head_not isJsWs l
    rw [h1] at this
    simpa using this

theorem jsTrim_last (l : List Char) :
    (jsTrim l).getLast?.all (fun c => !isJsWs c) = true := by
  unfold jsTrim
  rw [List.getLast?_reverse]
  exact dropWhile_head_not isJsWs _

theorem containsSubL_true_iff {p l : List Char} :
    containsSubL p l = true ↔ ∃ t, t <:+ l ∧ p.isPrefixOf t = true := by
  induction l with
  | nil =>
    simp only [containsSubL]
    constructor
    · intro h; exact ⟨[], List.suffix_refl _, h⟩
    · rintro ⟨t, ht, hp⟩
      have : t = [] := List.suffix_nil.mp ht
      subst this; exact hp
  | cons c rest ih =>
    simp only [containsSubL, Bool.or_eq_true, ih]
    constructor
    · rintro (h | ⟨t, ht, hp⟩)
      · exact ⟨c :: rest, List.suffix_refl _, h⟩
      · exact ⟨t, List.suffix_cons_iff.mpr (Or.inr ht), hp⟩
    · rintro ⟨t, ht, hp⟩
      rcases List.suffix_cons_iff.mp ht with h | h
      · subst h; exact Or.inl hp
      · exact Or.inr ⟨t, h, hp⟩

theorem containsSubL_false_mono {p l' l : List Char} (hinf : l' <:+: l)
    (h : containsSubL p l = false) : containsSubL p l' = false := by
  cases hc : containsSubL p l' with
  | false => rfl
  | true =>
    exfalso
    obtain ⟨t, ht, hp⟩ := containsSubL_true_iff.mp hc
    obtain ⟨u, hu1, hu2⟩ := List.infix_iff_prefix_suffix.mp hinf
    obtain ⟨w, hw⟩ := hu1
    obtain ⟨v, hv⟩ := ht
    have htw : t ++ w <:+ u := ⟨v, by rw [← hw, ← hv, List.append_assoc]⟩
    have hpw : p.isPrefixOf (t ++ w) = true := by
      rw [List.isPrefixOf_iff_prefix] at hp ⊢
      exact hp.trans (List.prefix_append t w)
    have := containsSubL_of_prefix_suffix hpw (htw.trans hu2)
    rw [h] at this
    exact Bool.noConfusion this

theorem collapseWs_jsTrim_fix (X : List Char) :
    collapseWs (jsTrim (collapseWs X)) = jsTrim (collapseWs X) := by
  apply collapseWsAux_eq_self
  · intro c hc hws
    have hmem : c ∈ collapseWs X := mem_jsTrim hc
    rcases mem_collapseWsAux false X hmem with h | ⟨_, hnw⟩
    · exact h
    · rw [hws] at hnw; exact Bool.noConfusion hnw
  · exact containsSubL_false_mono (jsTrim_midSub _) (collapseWsAux_no_double false X)
  · simp

theorem squashSpaces_idem (s : String) :
    squashSpaces (squashSpaces s) = squashSpaces s := by
  show (⟨jsTrim (collapseWs (jsTrim (collapseWs s.data)))⟩ : String) = _
  rw [collapseWs_jsTrim_fix s.data,
    jsTrim_eq_self (jsTrim_head _) (jsTrim_last _)]
  rfl

theorem normChar_stable (c : Char) :
    isDashRange (curlyDqToQuote (curlySqToQuote (dashToHyphen c))) = false ∧
    isCurlySq (curlyDqToQuote (curlySqToQuote (dashToHyphen c))) = false ∧
    isCurlyDq (curlyDqToQuote (curlySqToQuote (dashToHyphen c))) = false := by
  by_cases hd : isDashRange c = true
  · have : dashToHyphen c = '-' := by simp [dashToHyphen, hd]
    rw [this]; decide
  · have hd' : isDashRange c = false := by simpa using hd
    have e1 : dashToHyphen c = c := by simp [dashToHyphen, hd']
    rw [e1]
    by_cases hsq : isCurlySq c = true
    · have : curlySqToQuote c = '\'' := by simp [curlySqToQuote, hsq]
      rw [this]; decide
    · have hsq' : isCurlySq c = false := by simpa using hsq
      have e2 : curlySqToQuote c = c := by simp [curlySqToQuote, hsq']
      rw [e2]
      by_cases hdq : isCurlyDq c = true
      · have : curlyDqToQuote c = '"' := by simp [curlyDqToQuote, hdq]
        rw [this]; decide
      · have hdq' : isCurlyDq c = false := by simpa using hdq
        have e3 : curlyDqToQuote c = c := by simp [curlyDqToQuote, hdq']
        rw [e3]
        exact ⟨hd', hsq', hdq'⟩

theorem mem_cleanText {c : Char} {s : String} (h : c ∈ (cleanText s).data) :
    isDashRange c = false ∧ isCurlySq c = false ∧ isCurlyDq c = false := by
  have h1 : c ∈ collapseWs (normalizeDashesQuotes s).data := mem_jsTrim h
  rcases mem_collapseWsAux false _ h1 with h' | ⟨hm, _⟩
  · subst h'; decide
  · have : ∃ a ∈ s.data,
        curlyDqToQuote (curlySqToQuote (dashToHyphen a)) = c := by
      simpa [normalizeDashesQuotes] using hm
    obtain ⟨a, _, ha⟩ := this
    rw [← ha]
    exact normChar_stable a

theorem normalizeDashesQuotes_cleanText (s : String) :
    normalizeDashesQuotes (cleanText s) = cleanText s := by
  have e1 : (cleanText s).data.map dashToHyphen = (cleanText s).data :=
    map_eq_self_of_fix (fun c hc => by simp [dashToHyphen, (mem_cleanText hc).1])
  have e2 : (cleanText s).data.map curlySqToQuote = (cleanText s).data :=
    map_eq_self_of_fix (fun c hc => by simp [curlySqToQuote, (mem_cleanText hc).2.1])
  have e3 : (cleanText s).data.map curlyDqToQuote = (cleanText s).data :=
    map_eq_self_of_fix (fun c hc => by simp [curlyDqToQuote, (mem_cleanText hc).2.2])
  show (⟨(((cleanText s).data.map dashToHyphen).map curlySqToQuote).map curlyDqToQuote⟩ : String)
    = cleanText s
  rw [e1, e2, e3]

theorem cleanText_idem (s : String) : cleanText (cleanText s) = cleanText s := by
  show squashSpaces (normalizeDashesQuotes (cleanText s)) = cleanText s
  rw [normalizeDashesQuotes_cleanText]
  exact squashSpaces_idem _

/-! ### C8 and C9: the field disambiguator -/

/-- Comma-split parts of a (cleaned) title as computed by
`looksLikeAuthorList`: `split(/\s*,\s*/)` followed by `filter(Boolean)`. -/
def commaParts (t : String) : List (List Char) :=
  (splitAux sepCommaAt 0 [] t.data).filter (fun p => p ≠ [])

theorem looksLikeAuthorList_iff (s : String) :
    looksLikeAuthorList s = true ↔
      (2 ≤ (commaParts (cleanText s)).length ∧
       max 2 (3 * (commaParts (cleanText s)).length / 5) ≤
         (commaParts (cleanText s)).countP nameShape) := by
  simp only [looksLikeAuthorList, commaParts]
  by_cases h0 : cleanText s = ""
  · rw [h0]; decide
  · rw [if_neg h0]
    by_cases h2 :
        ((splitAux sepCommaAt 0 [] (cleanText s).data).filter (fun p => p ≠ [])).length < 2
    · rw [if_pos h2]
      constructor
      · intro hh; exact absurd hh (by decide)
      · rintro ⟨hlen, _⟩; omega
    · rw [if_neg h2]
      rw [decide_eq_true_eq]
      constructor
      · intro hthr; exact ⟨by omega, hthr⟩
      · rintro ⟨_, hthr⟩; exact hthr

/-- The trigger condition of `fixTitleAndAuthors`, restated as a
proposition (`looksLikeAuthorList` re-cleans the already-cleaned title, so
`cleanText_idem` applies). -/
theorem trigger_iff (rawTitle : String) (authors : List String) :
    (authors.isEmpty && looksLikeAuthorList (cleanText rawTitle)) = true ↔
      (authors = [] ∧ 2 ≤ (commaParts (cleanText rawTitle)).length ∧
       max 2 (3 * (commaParts (cleanText rawTitle)).length / 5) ≤
         (commaParts (cleanText rawTitle)).countP nameShape) := by
  rw [Bool.and_eq_true, List.isEmpty_iff, looksLikeAuthorList_iff, cleanText_idem]

/-- Unfolding of `fixTitleAndAuthors` as a two-level conditional. -/
theorem fixTitleAndAuthors_def (rawTitle rawVenue : String) (authors : List String) :
    fixTitleAndAuthors rawTitle rawVenue authors =
      (if authors.isEmpty && looksLikeAuthorList (cleanText rawTitle) then
        (if decide (12 < (cleanText rawVenue).length) &&
            hasLowerRun3 (cleanText rawVenue).data then
          ⟨cleanText rawVenue, "", _splitByConj (cleanText rawTitle)⟩
        else ⟨cleanText rawTitle, cleanText rawVenue, _splitByConj (cleanText rawTitle)⟩)
      else ⟨cleanText rawTitle, cleanText rawVenue, authors⟩) := rfl

/-- Predicate written from the claim wording of C8: the cleaned title,
comma-split, yields at least 2 parts of which at least 60 percent — and at
least 2 in absolute terms — match the personal-name shape. -/
def sixtyPercentNameParts (s : String) : Bool :=
  let parts := commaParts (cleanText s)
  decide (2 ≤ parts.length) && decide (2 ≤ parts.countP nameShape) &&
    decide (3 * parts.length ≤ 5 * parts.countP nameShape)

/-- C8 (counterexample): the disambiguator does not require that at least
60 percent of the comma-parts be name-shaped.  On a title with 6 parts of
which only 3 (50 percent) match the personal-name shape, the trigger still
fires — the empty incoming authors list gets populated — because the
source threshold is `max 2 ⌊n·0.6⌋ = 3`, which is below 60 percent of 6. -/
theorem fixTitleAndAuthors_sixty_percent_cex :
    (fixTitleAndAuthors "Smith, Lee, Gupta, xx, yy, zz" "" []).authors ≠ [] ∧
    sixtyPercentNameParts "Smith, Lee, Gupta, xx, yy, zz" = false := by decide

/-- C8 (amended): the field disambiguator triggers exactly when the
incoming authors list is empty and the cleaned title, split on commas,
yields at least 2 parts of which at least `max 2 ⌊3·n/5⌋` match the
personal-name shape (capitalized surname token optionally followed by
capitalized initials); when triggered it populates authors by re-splitting
the cleaned title on conjunction/separator punctuation, and it promotes
venue to title (clearing venue) exactly when the cleaned venue is longer
than 12 characters and contains a run of at least three lowercase letters;
otherwise the (cleaned) fields are returned with the authors unchanged. -/
theorem fixTitleAndAuthors_characterization (rawTitle rawVenue : String)
    (authors : List String) :
    fixTitleAndAuthors rawTitle rawVenue authors =
      (let title := cleanText rawTitle
       let venue := cleanText rawVenue
       let parts := commaParts title
       if authors = [] ∧ 2 ≤ parts.length ∧
           max 2 (3 * parts.length / 5) ≤ parts.countP nameShape then
         if 12 < venue.length ∧ hasLowerRun3 venue.data = true then
           ⟨venue, "", _splitByConj title⟩
         else ⟨title, venue, _splitByConj title⟩
       else ⟨title, venue, authors⟩) := by
  rw [fixTitleAndAuthors_def]
  show _ = ite _ _ _
  by_cases hc : authors = [] ∧ 2 ≤ (commaParts (cleanText rawTitle)).length ∧
      max 2 (3 * (commaParts (cleanText rawTitle)).length / 5) ≤
        (commaParts (cleanText rawTitle)).countP nameShape
  · rw [if_pos ((trigger_iff rawTitle authors).mpr hc), if_pos hc]
    by_cases hp : 12 < (cleanText rawVenue).length ∧
        hasLowerRun3 (cleanText rawVenue).data = true
    · have hpb : (decide (12 < (cleanText rawVenue).length) &&
          hasLowerRun3 (cleanText rawVenue).data) = true := by
        rw [Bool.and_eq_true, decide_eq_true_eq]; exact hp
      rw [if_pos hpb, if_pos hp]
    · have hpb : (decide (12 < (cleanText rawVenue).length) &&
          hasLowerRun3 (cleanText rawVenue).data) ≠ true := by
        intro hh
        rw [Bool.and_eq_true, decide_eq_true_eq] at hh
        exact hp hh
      rw [if_neg hpb, if_neg hp]
  · rw [if_neg (fun hh => hc ((trigger_iff rawTitle authors).mp hh)), if_neg hc]

/-- C9 (counterexample): the field disambiguator is not a fixed point on
its own output.  On `(", And , And ,", "Smith, Leeson, Gupta", [])` the
first application triggers, re-splits the title into *no* author parts
(every token of the title is consumed as a separator), and promotes the
venue — itself author-list-shaped — to the title; the second application
then triggers again and populates the authors. -/
theorem fixTitleAndAuthors_not_fixed_point :
    (let r := fixTitleAndAuthors ", And , And ," "Smith, Leeson, Gupta" []
     fixTitleAndAuthors r.title r.venue r.authors ≠ r) := by decide

theorem fixTitleAndAuthors_clean_fields (t v : String) (a : List String) :
    cleanText (fixTitleAndAuthors t v a).title = (fixTitleAndAuthors t v a).title ∧
    cleanText (fixTitleAndAuthors t v a).venue = (fixTitleAndAuthors t v a).venue := by
  rw [fixTitleAndAuthors_def]
  by_cases h1 : (a.isEmpty && looksLikeAuthorList (cleanText t)) = true
  · rw [if_pos h1]
    by_cases h2 : (decide (12 < (cleanText v).length) &&
        hasLowerRun3 (cleanText v).data) = true
    · rw [if_pos h2]
      refine ⟨cleanText_idem v, ?_⟩
      show cleanText "" = ""
      decide
    · rw [if_neg h2]
      exact ⟨cleanText_idem t, cleanText_idem v⟩
  · rw [if_neg h1]
    exact ⟨cleanText_idem t, cleanText_idem v⟩

/-- C9 (amended): applying `fixTitleAndAuthors` to its own output returns
that output unchanged whenever the produced authors list is nonempty, or
the produced title does not look like an author list, or the produced
title re-splits to an empty author list while the produced venue does not
qualify for promotion.  (Unconditionally the claim is false:
`fixTitleAndAuthors_not_fixed_point`.) -/
theorem fixTitleAndAuthors_fixed_point_of_safe (t v : String) (a : List String)
    (h : (fixTitleAndAuthors t v a).authors ≠ [] ∨
         looksLikeAuthorList (fixTitleAndAuthors t v a).title = false ∨
         (_splitByConj (fixTitleAndAuthors t v a).title = [] ∧
          ¬(12 < (fixTitleAndAuthors t v a).venue.length ∧
            hasLowerRun3 (fixTitleAndAuthors t v a).venue.data = true))) :
    fixTitleAndAuthors (fixTitleAndAuthors t v a).title
      (fixTitleAndAuthors t v a).venue (fixTitleAndAuthors t v a).authors =
      fixTitleAndAuthors t v a := by
  obtain ⟨ht, hv⟩ := fixTitleAndAuthors_clean_fields t v a
  rw [fixTitleAndAuthors_def, ht, hv]
  by_cases hcond : ((fixTitleAndAuthors t v a).authors.isEmpty &&
      looksLikeAuthorList (fixTitleAndAuthors t v a).title) = true
  · rw [Bool.and_eq_true] at hcond
    have ha : (fixTitleAndAuthors t v a).authors = [] :=
      List.isEmpty_iff.mp hcond.1
    have hlk : looksLikeAuthorList (fixTitleAndAuthors t v a).title = true := hcond.2
    rw [← Bool.and_eq_true] at hcond
    rcases h with h | h | ⟨hsplit, hpromote⟩
    · exact absurd ha h
    · rw [hlk] at h; exact Bool.noConfusion h
    · rw [if_pos hcond]
      have hpB : (decide (12 < (fixTitleAndAuthors t v a).venue.length) &&
          hasLowerRun3 (fixTitleAndAuthors t v a).venue.data) = false := by
        cases hb : (decide (12 < (fixTitleAndAuthors t v a).venue.length) &&
            hasLowerRun3 (fixTitleAndAuthors t v a).venue.data) with
        | false => rfl
        | true =>
          rw [Bool.and_eq_true] at hb
          exact absurd ⟨of_decide_eq_true hb.1, hb.2⟩ hpromote
      rw [if_neg (fun hh => Bool.noConfusion (hpB ▸ hh))]
      rw [hsplit, ← ha]
  · rw [if_neg hcond]

/-- Witness for `fixTitleAndAuthors_fixed_point_of_safe`: on
`("Smith, Lee", "x", [])` the disambiguator triggers and produces a
nonempty authors list, so its output is a fixed point. -/
theorem fixTitleAndAuthors_fixed_point_witness :
    fixTitleAndAuthors (fixTitleAndAuthors "Smith, Lee" "x" []).title
      (fixTitleAndAuthors "Smith, Lee" "x" []).venue
      (fixTitleAndAuthors "Smith, Lee" "x" []).authors =
      fixTitleAndAuthors "Smith, Lee" "x" [] :=
  fixTitleAndAuthors_fixed_point_of_safe "Smith, Lee" "x" [] (Or.inl (by decide))

/-! ### Input model and tokenizer of topicRules.js -/

/-- A publication record as consumed by `inferTopic`; every field is
optional.  `year` holds the string rendering of the year field, as it
appears in join keys. -/
structure PubRecord where
  url : Option String := none
  authors : Option String := none
  title : Option String := none
  venue : Option String := none
  year : Option String := none
deriving DecidableEq

/-- A batch row: a free-text string or a structured record.  (The batch
key computation dereferences object fields, so nullish rows — which would
throw — are not part of the row type; `inferTopic` alone also accepts
null, see `PubInput`.) -/
inductive Row where
  | str (s : String)
  | record (r : PubRecord)
deriving DecidableEq

/-- An argument to `inferTopic`: a row or a nullish value. -/
inductive PubInput where
  | null
  | row (r : Row)
deriving DecidableEq

/-- Case-insensitive prefix test against a lower-case pattern. -/
def isPrefixOfCI : List Char → List Char → Bool
  | [], _ => true
  | _ :: _, [] => false
  | c :: p, d :: l => c = d.toLower && isPrefixOfCI p l

/-- Anchored match length for the alternative `https?:\/\/\S+` of the
URL-or-DOI regex (case-insensitive; `\S+` greedily takes the whole
non-whitespace run). -/
def matchUrlAt (l : List Char) : Option Nat :=
  let proto : Option Nat :=
    if isPrefixOfCI ("https://".data) l then some 8
    else if isPrefixOfCI ("http://".data) l then some 7
    else none
  match proto with
  | none => none
  | some n1 =>
    let w := (l.drop n1).takeWhile (fun c => !isJsWs c)
    if w.isEmpty then none else some (n1 + w.length)

/-- Digit character. -/
def isDigitChar (c : Char) : Bool := '0' ≤ c && c ≤ '9'

/-- Anchored match length for the alternative `10\.[0-9]{4,9}\/\S+`:
`10.`, then a digit run whose full length must lie in 4..9 (the greedy
bounded quantifier backtracks only to digit positions, and the required
`/` is not a digit, so only the full run can succeed), then `/`, then a
nonempty non-whitespace run. -/
def matchBareDoiAt (l : List Char) : Option Nat :=
  match l with
  | '1' :: '0' :: '.' :: rest =>
    let ds := rest.takeWhile isDigitChar
    if 4 ≤ ds.length && ds.length ≤ 9 then
      match rest.drop ds.length with
      | '/' :: rest2 =>
        let w := rest2.takeWhile (fun c => !isJsWs c)
        if w.isEmpty then none else some (3 + ds.length + 1 + w.length)
      | _ => none
    else none
  | _ => none

/-- First (leftmost) match of `/https?:\/\/\S+|10\.[0-9]{4,9}\/\S+/i`,
with the URL alternative tried first at each position. -/
def findUrlOrDoi : List Char → Option (List Char)
  | [] => none
  | c :: rest =>
    match matchUrlAt (c :: rest) with
    | some n => some ((c :: rest).take n)
    | none =>
      match matchBareDoiAt (c :: rest) with
      | some n => some ((c :: rest).take n)
      | none => findUrlOrDoi rest

/-- The character class of the author-list heuristic regex (letters,
dash, dot, curly or straight apostrophe, backtick, space). -/
def isAuthorsC1 (c : Char) : Bool :=
  isAsciiLetter c || c = '-' || c = '.' || c = Char.ofNat 0x2019 || c = '\'' ||
  c = Char.ofNat 0x60 || c = ' '

/-- Unanchored test of the heuristic `[A-Za-z\-\.’'` ]+,[^.\n]+`: some
class character directly before a comma that is directly followed by a
character other than `.` and newline (one character of each bounded run
suffices for existence). -/
def looksLikeAuthorsScan (l : List Char) : Bool :=
  match l with
  | a :: b :: c :: rest =>
    (isAuthorsC1 a && b = ',' && !(c = '.') && !(c = '\n')) ||
      looksLikeAuthorsScan (b :: c :: rest)
  | _ => false

/-- Membership in the DOI-body class `[\w.()/:;#?=&%+-]`. -/
def isDoiBodyChar (c : Char) : Bool :=
  isWordChar c || c = '.' || c = '(' || c = ')' || c = '/' || c = ':' ||
  c = ';' || c = '#' || c = '?' || c = '=' || c = '&' || c = '%' ||
  c = '+' || c = '-'

/-- Anchored match of `DOI_RE` (`10\.[0-9]{4,9}\/[\w.()/:;#?=&%+-]+`),
returning the matched substring (= capture group 1). -/
def matchDoiAt (l : List Char) : Option (List Char) :=
  match l with
  | '1' :: '0' :: '.' :: rest =>
    let ds := rest.takeWhile isDigitChar
    if 4 ≤ ds.length && ds.length ≤ 9 then
      match rest.drop ds.length with
      | '/' :: rest2 =>
        let w := rest2.takeWhile isDoiBodyChar
        if w.isEmpty then none else some (l.take (3 + ds.length + 1 + w.length))
      | _ => none
    else none
  | _ => none

/-- First (leftmost) match of `DOI_RE` in the haystack. -/
def findDoi : List Char → Option (List Char)
  | [] => none
  | c :: rest =>
    match matchDoiAt (c :: rest) with
    | some m => some m
    | none => findDoi rest

/-- The token bundle produced by `tokensFromInput`.  The field `doiPre`
models the source field `doiPrefix` (the registrant prefix of the first
DOI found in the haystack). -/
structure Toks where
  hay : String
  doiPre : String
  authors : String
deriving DecidableEq

/-- JS `Array.prototype.join`. -/
def joinWith (sep : String) : List String → String
  | [] => ""
  | [x] => x
  | x :: xs => x ++ sep ++ joinWith sep xs

/-- Assembly of the token bundle shared by the string and record branches
of `tokensFromInput`: `hay = [clean(url), lc(extra), lc(authors)]
.filter(Boolean).join(" ").trim()`, DOI extraction from the haystack, and
the lower-cased author text. -/
def mkToks (url extra authors : String) : Toks :=
  let s := clean url
  let hay := (⟨jsTrim (joinWith " "
    (([s, lc extra, lc authors]).filter (fun x => x ≠ ""))).data⟩ : String)
  let doi := match findDoi hay.data with
    | some m => (⟨m⟩ : String)
    | none => ""
  let doiPre := if doi = "" then "" else lc ⟨doi.data.takeWhile (fun c => c ≠ '/')⟩
  ⟨hay, doiPre, lc authors⟩

/-- `tokensFromInput` from topicRules.js. -/
def tokensFromInput (input : PubInput) : Toks :=
  match input with
  | .null => ⟨"", "", ""⟩
  | .row (.str s) =>
    if s = "" then ⟨"", "", ""⟩
    else
      let url := match findUrlOrDoi s.data with
        | some m => (⟨m⟩ : String)
        | none => ""
      let looksLikeAuthors := looksLikeAuthorsScan s.data
      let authors := if looksLikeAuthors then s else ""
      let extra := if looksLikeAuthors then "" else s
      mkToks url extra authors
  | .row (.record r) =>
    let url := r.url.getD ""
    let authors := r.authors.getD ""
    let extra := joinWith " "
      (([r.title.getD "", r.venue.getD ""]).filter (fun x => x ≠ ""))
    mkToks url extra authors

/-! ### Rules, scoring and the resolver -/

/-! Tier weights `W.J = 3`, `W.K = 2`, `W.A = 2`, `W.D = 1`. -/

namespace W

def J : Nat := 3

def K : Nat := 2

def A : Nat := 2

def D : Nat := 1

end W

/-- The confidence floor. -/
def MIN_CONFIDENCE : Nat := 2

/-- One pattern rule of a tier: an opaque matcher (the observable
behaviour of `RegExp.prototype.test` on the tier's designated input), the
regex source text (interpolated into provenance strings), and the target
category. -/
structure Rule where
  test : String → Bool
  src : String
  cat : String

/-- The four module-level rule tables (`TOKENS`, `DOI_HINTS`,
`AUTHOR_HINTS`, `KEYWORDS`), abstracted as data. -/
structure Rules where
  tokens : List Rule
  doiHints : List Rule
  authorHints : List Rule
  keywords : List Rule

/-- A score-map entry. -/
structure Entry where
  score : Nat
  reasons : List String
deriving DecidableEq

/-- A score map: category → entry, in insertion order (JS object with
string keys). -/
abbrev ScoreMap := List (String × Entry)

/-- `addScore` from topicRules.js: skip falsy categories, create the entry
on first use (appending the key in insertion order), accumulate the
weight, push the provenance string when nonempty. -/
def addScore (m : ScoreMap) (cat : String) (w : Nat) (why : String) : ScoreMap :=
  if cat = "" then m
  else if m.any (fun p => p.1 = cat) then
    m.map (fun p => if p.1 = cat then
      (p.1, ⟨p.2.score + w, if why = "" then p.2.reasons else p.2.reasons ++ [why]⟩)
    else p)
  else m ++ [(cat, ⟨w, if why = "" then [] else [why]⟩)]

/-- `collectScores` from topicRules.js: every rule of every tier is tested
against the tier's designated input; author rules run against the author
text, falling back to the haystack. -/
def collectScores (R : Rules) (t : Toks) : ScoreMap :=
  let s0 := R.tokens.foldl
    (fun m r => if r.test t.hay then addScore m r.cat W.J ("journal:" ++ r.src) else m) []
  let s1 := if t.doiPre ≠ "" then
      R.doiHints.foldl
        (fun m r => if r.test t.doiPre then addScore m r.cat W.D ("doi:" ++ t.doiPre) else m) s0
    else s0
  let authorHay := if t.authors ≠ "" then t.authors else t.hay
  let s2 := if authorHay ≠ "" then
      R.authorHints.foldl
        (fun m r => if r.test authorHay then addScore m r.cat W.A ("author:" ++ r.src) else m) s1
    else s1
  R.keywords.foldl
    (fun m r => if r.test t.hay then addScore m r.cat W.K ("kw:" ++ r.src) else m) s2

/-- Result record of `pickBest`. -/
structure Picked where
  category : String
  scores : ScoreMap
deriving DecidableEq

/-- The comparator `(a, b) => b[1].score - a[1].score` as the ordering
relation of a stable sort (ECMAScript `Array.prototype.sort` is stable,
and with a consistent comparator its output is uniquely determined, so any
stable sort models it; `List.insertionSort` is stable). -/
def scoreDesc (a b : String × Entry) : Prop := b.2.score ≤ a.2.score

instance : DecidableRel scoreDesc := fun _ _ => Nat.decLe _ _

/-- The comparator `(a, b) => b[1].reasons.length - a[1].reasons.length`. -/
def reasonsDesc (a b : String × Entry) : Prop :=
  b.2.reasons.length ≤ a.2.reasons.length

instance : DecidableRel reasonsDesc := fun _ _ => Nat.decLe _ _

/-- `v.reasons.some((r) => r.startsWith("journal:"))`. -/
def hasJournalReason (e : String × Entry) : Bool :=
  e.2.reasons.any (fun r => ("journal:".data).isPrefixOf r.data)

/-- `pickBest` from topicRules.js: confidence gate, then the tie-break
chain (unique top score; else unique venue-tier-matched tied category;
else densest provenance within the venue-tier subset if it is nonempty,
otherwise within the full tied set). -/
def pickBest (scores : ScoreMap) : Picked :=
  if scores.isEmpty then ⟨"Other", scores⟩
  else
    let entries := List.insertionSort scoreDesc scores
    let topScore := (entries.headD ("", ⟨0, []⟩)).2.score
    if topScore < MIN_CONFIDENCE then ⟨"Other", scores⟩
    else
      let tied := entries.filter (fun e => e.2.score == topScore)
      if tied.length = 1 then ⟨(tied.headD ("", ⟨0, []⟩)).1, scores⟩
      else
        let withJournal := tied.filter hasJournalReason
        if withJournal.length = 1 then ⟨(withJournal.headD ("", ⟨0, []⟩)).1, scores⟩
        else
          let wjSorted := List.insertionSort reasonsDesc withJournal
          let tiedSorted := List.insertionSort reasonsDesc tied
          match wjSorted with
          | p :: _ => ⟨p.1, scores⟩
          | [] => ⟨(tiedSorted.headD ("", ⟨0, []⟩)).1, scores⟩

/-- `inferTopic` from topicRules.js. -/
def inferTopic (R : Rules) (pubOrText : PubInput) : String :=
  let toks := tokensFromInput pubOrText
  if toks.hay = "" then "Other"
  else
    let category := (pickBest (collectScores R toks)).category
    if category = "" then "Other" else category

/-- Result record of `explainTopic` (the `breakdown` is the score map
re-serialized in descending score order). -/
structure Explain where
  picked : String
  breakdown : ScoreMap
  tokens : Toks
deriving DecidableEq

/-- `explainTopic` from topicRules.js. -/
def explainTopic (R : Rules) (pubOrText : PubInput) : Explain :=
  let toks := tokensFromInput pubOrText
  let scores := collectScores R toks
  let picked := pickBest scores
  ⟨picked.category, List.insertionSort scoreDesc scores, toks⟩

/-! ### Batch classification and deduplication -/

/-- A labeled batch result `{ topic, row }`. -/
structure Labeled where
  topic : String
  row : Row
deriving DecidableEq

/-- Whole-suffix test for `\s+open\s*$/i`: nonempty whitespace, `open`
case-insensitively, then only whitespace to the end of the string. -/
def tailOpenMatch (l : List Char) : Bool :=
  let w1 := l.takeWhile isJsWs
  if w1.isEmpty then false
  else
    match l.drop w1.length with
    | o :: p :: e :: n :: rest =>
      o.toLower = 'o' && p.toLower = 'p' && e.toLower = 'e' && n.toLower = 'n' &&
        rest.all isJsWs
    | _ => false

/-- The (non-global) replace of the first match of `\s+open\s*$/i` by the
empty string: scan for the leftmost position whose suffix matches; the
match is anchored at the end, so everything from there on is dropped. -/
def stripTrailingOpen : List Char → List Char
  | [] => []
  | c :: rest => if tailOpenMatch (c :: rest) then [] else c :: stripTrailingOpen rest

/-- The truthy-fallback chain `row.authors || row.title || row.url` of the
composite key (an absent `url` renders as the empty string in the join). -/
def recBestText (r : PubRecord) : String :=
  if r.authors.getD "" ≠ "" then r.authors.getD ""
  else if r.title.getD "" ≠ "" then r.title.getD ""
  else r.url.getD ""

/-- The composite deduplication key of `classifyAll`,
`_classifyWithExplain` and `classifyAllBalanced` (the identical inline
expression at all three sites): for string rows the lower-cased string
with a trailing ` open` stripped; for records the lower-cased
`[year, authors || title || url].join("|")`. -/
def rowKey : Row → String
  | .str s => lc ⟨stripTrailingOpen s.data⟩
  | .record r => lc ((r.year.getD "") ++ "|" ++ recBestText r)

/-- JS `arr.filter((item, idx, arr) => arr.findIndex(sameKey) === idx)`:
keep exactly the positions that are the first occurrence of their key.
(`List.findIdx` returns the length when no element matches; the predicate
always matches the element itself, so the JS `-1` case cannot occur.) -/
def dedupByFirst {α : Type} (key : α → String) (l : List α) : List α :=
  (l.enum.filter (fun p => l.findIdx (fun z => key z == key p.2) == p.1)).map Prod.snd

/-- `classifyAll` from topicRules.js. -/
def classifyAll (R : Rules) (rows : List Row) : List Labeled :=
  dedupByFirst (fun item => rowKey item.row)
    (rows.map (fun row => ⟨inferTopic R (.row row), row⟩))

/-! ### Balanced batch helpers -/

/-- `rankScores` from topicRules.js. -/
def rankScores (scores : ScoreMap) : ScoreMap := List.insertionSort scoreDesc scores

/-- `bestNonOther` from topicRules.js: the best-ranked non-"Other"
category, even below the confidence floor; "Other" when none exists. -/
def bestNonOther (scores : ScoreMap) : String :=
  match (rankScores scores).filter (fun p => p.1 ≠ "Other") with
  | [] => "Other"
  | p :: _ => p.1

/-- A rich row of `_classifyWithExplain`. -/
structure RichRow where
  picked : String
  topAlt : String
  confidence : Nat
  explain : Explain
  row : Row
  key : String
deriving DecidableEq

/-- The row enrichment of `_classifyWithExplain` (before deduplication). -/
def richify (R : Rules) (row : Row) : RichRow :=
  let exp := explainTopic R (.row row)
  ⟨if exp.picked = "" then "Other" else exp.picked,
   bestNonOther exp.breakdown,
   (match rankScores exp.breakdown with
    | [] => 0
    | p :: _ => p.2.score),
   exp, row, rowKey row⟩

/-- `_classifyWithExplain` from topicRules.js. -/
def _classifyWithExplain (R : Rules) (rows : List Row) : List RichRow :=
  dedupByFirst (fun item => item.key) (rows.map (richify R))

/-- `altScore` from `classifyAllBalanced`: `bd[alt]?.score ?? 0`. -/
def altScore (r : RichRow) : Nat :=
  match r.explain.breakdown.find? (fun p => p.1 == r.topAlt) with
  | some p => p.2.score
  | none => 0

/-- The comparator
`(a, b) => altScore(b) - altScore(a) || b.confidence - a.confidence`. -/
def reassignDesc (a b : RichRow) : Prop :=
  altScore b < altScore a ∨ (altScore b = altScore a ∧ b.confidence ≤ a.confidence)

instance : DecidableRel reassignDesc := fun a b => by
  unfold reassignDesc; infer_instance

/-- `classifyAllBalanced` from topicRules.js. -/
def classifyAllBalanced (R : Rules) (rows : List Row) (maxOther : Nat) : List Labeled :=
  let rich := _classifyWithExplain R rows
  let others := rich.filter (fun r => r.picked == "Other")
  if others.length ≤ maxOther then
    rich.map (fun r => ⟨r.picked, r.row⟩)
  else
    let reassignable := List.insertionSort reassignDesc
      (others.filter (fun r => decide (r.topAlt ≠ "Other") && decide (0 < altScore r)))
    let need := max 0 (others.length - maxOther)
    let toFlip := reassignable.take need
    let flippedKeys := toFlip.map (fun r => r.key)
    rich.map (fun r =>
      if flippedKeys.contains r.key then ⟨r.topAlt, r.row⟩ else ⟨r.picked, r.row⟩)

/-! ### Facts about the resolver -/

instance : IsTotal (String × Entry) scoreDesc :=
  ⟨fun a b => Nat.le_total b.2.score a.2.score⟩

instance : IsTrans (String × Entry) scoreDesc :=
  ⟨fun _ _ _ h1 h2 => Nat.le_trans h2 h1⟩

/-- The head of the score-sorted entry list carries the maximum score. -/
theorem head_scoreDesc_max {scores : ScoreMap} {p : String × Entry}
    {rest : List (String × Entry)}
    (h : List.insertionSort scoreDesc scores = p :: rest) :
    ∀ q ∈ scores, q.2.score ≤ p.2.score := by
  intro q hq
  have hs := List.sorted_insertionSort scoreDesc scores
  rw [h] at hs
  have hqs : q ∈ p :: rest := by
    rw [← h]
    exact ((List.perm_insertionSort scoreDesc scores).mem_iff).mpr hq
  rcases List.mem_cons.mp hqs with rfl | hqr
  · exact Nat.le_refl _
  · exact List.rel_of_sorted_cons hs q hqr

/-- Nonempty score maps sort to a nonempty entry list. -/
theorem insertionSort_ne_nil {scores : ScoreMap} (h : scores ≠ []) :
    List.insertionSort scoreDesc scores ≠ [] := by
  intro hnil
  have := (List.perm_insertionSort scoreDesc scores).length_eq
  rw [hnil] at this
  exact h (List.length_eq_zero.mp this.symm)

/-- C1: for every input whose score map has a maximum accumulated score
strictly below the confidence floor `MIN_CONFIDENCE = 2` (in particular an
input whose only matching rule is a single DOI-tier rule of weight
`W.D = 1`), the classifier returns the overflow category `"Other"`,
regardless of which category holds that top score and regardless of the
rule tables. -/
theorem confidence_floor_other (R : Rules) (input : PubInput)
    (h : ∀ p ∈ collectScores R (tokensFromInput input), p.2.score < 2) :
    inferTopic R input = "Other" := by
  unfold inferTopic
  by_cases hh : (tokensFromInput input).hay = ""
  · rw [if_pos hh]
  · rw [if_neg hh]
    suffices hcat : (pickBest (collectScores R (tokensFromInput input))).category = "Other" by
      rw [hcat]; rfl
    unfold pickBest
    by_cases he : (collectScores R (tokensFromInput input)).isEmpty
    · rw [if_pos he]
    · rw [if_neg he]
      have hne : collectScores R (tokensFromInput input) ≠ [] := by
        intro hnil; rw [hnil] at he; exact he rfl
      cases hsort : List.insertionSort scoreDesc (collectScores R (tokensFromInput input)) with
      | nil => exact absurd hsort (insertionSort_ne_nil hne)
      | cons p rest =>
        have hp : p ∈ collectScores R (tokensFromInput input) :=
          (List.perm_insertionSort scoreDesc _).mem_iff.mp (by rw [hsort]; simp)
        have hlt : p.2.score < 2 := h p hp
        simp only [List.headD_cons, MIN_CONFIDENCE]
        rw [if_pos hlt]

/-- Witness for `confidence_floor_other`: a rule table with a single
DOI-tier hint and a record whose URL is a bare DOI with that registrant
prefix; the only entry scores `W.D = 1 < 2` and the classifier returns
`"Other"`. -/
theorem confidence_floor_other_witness :
    (∀ p ∈ collectScores
        ⟨[], [⟨fun s => s == "10.1002", "^10.(1002|1111)", "Oncology & Hematology"⟩], [], []⟩
        (tokensFromInput (.row (.record ⟨some "10.1002/abc", none, none, none, none⟩))),
      p.2.score < 2) ∧
    inferTopic
      ⟨[], [⟨fun s => s == "10.1002", "^10.(1002|1111)", "Oncology & Hematology"⟩], [], []⟩
      (.row (.record ⟨some "10.1002/abc", none, none, none, none⟩)) = "Other" :=
  ⟨by decide, confidence_floor_other _ _ (by decide)⟩

/-- C10: every empty or falsy input — `null`, the empty string, and the
record with no usable fields `{}` — yields an empty haystack from the
tokenizer, and `inferTopic` returns `"Other"`; the quantification over the
rule tables shows that no rule pattern influences the result
(classification short-circuits before any rule is evaluated). -/
theorem empty_input_other (R : Rules) :
    inferTopic R .null = "Other" ∧
    inferTopic R (.row (.str "")) = "Other" ∧
    inferTopic R (.row (.record ⟨none, none, none, none, none⟩)) = "Other" ∧
    (tokensFromInput .null).hay = "" ∧
    (tokensFromInput (.row (.str ""))).hay = "" ∧
    (tokensFromInput (.row (.record ⟨none, none, none, none, none⟩))).hay = "" :=
  ⟨rfl, rfl, rfl, rfl, rfl, rfl⟩

/-! ### The journal-reason invariant of collectScores -/

/-- Every entry whose provenance contains a venue/journal-tier reason has
accumulated at least the journal weight `W.J = 3`. -/
def JournalScored (m : ScoreMap) : Prop :=
  ∀ p ∈ m, hasJournalReason p = true → 3 ≤ p.2.score

theorem journal_not_prefix_doi (s : String) :
    ("journal:".data).isPrefixOf (("doi:" ++ s).data) = false := by
  rw [String.data_append]; rfl

theorem journal_not_prefix_author (s : String) :
    ("journal:".data).isPrefixOf (("author:" ++ s).data) = false := by
  rw [String.data_append]; rfl

theorem journal_not_prefix_kw (s : String) :
    ("journal:".data).isPrefixOf (("kw:" ++ s).data) = false := by
  rw [String.data_append]; rfl

theorem journalScored_addScore_J {m : ScoreMap} (cat why : String)
    (hm : JournalScored m) : JournalScored (addScore m cat 3 why) := by
  intro p hp _
  unfold addScore at hp
  by_cases h0 : cat = ""
  · rw [if_pos h0] at hp; exact hm p hp ‹_›
  · rw [if_neg h0] at hp
    by_cases h1 : (m.any (fun q => q.1 = cat)) = true
    · rw [if_pos h1] at hp
      obtain ⟨q, hq, hfq⟩ := List.mem_map.mp hp
      by_cases h2 : q.1 = cat
      · rw [if_pos h2] at hfq
        rw [← hfq]
        simp only []
        omega
      · rw [if_neg h2] at hfq
        rw [← hfq]
        exact hm q hq (hfq ▸ ‹_›)
    · rw [if_neg h1] at hp
      rcases List.mem_append.mp hp with hpm | hps
      · exact hm p hpm ‹_›
      · have : p = (cat, ⟨3, if why = "" then [] else [why]⟩) := by simpa using hps
        rw [this]

theorem journalScored_addScore_nonJ {m : ScoreMap} (cat why : String) (w : Nat)
    (hwhy : ("journal:".data).isPrefixOf why.data = false)
    (hm : JournalScored m) : JournalScored (addScore m cat w why) := by
  intro p hp hJ
  unfold addScore at hp
  by_cases h0 : cat = ""
  · rw [if_pos h0] at hp; exact hm p hp hJ
  · rw [if_neg h0] at hp
    by_cases h1 : (m.any (fun q => q.1 = cat)) = true
    · rw [if_pos h1] at hp
      obtain ⟨q, hq, hfq⟩ := List.mem_map.mp hp
      by_cases h2 : q.1 = cat
      · rw [if_pos h2] at hfq
        have hqJ : hasJournalReason q = true := by
          rw [← hfq] at hJ
          unfold hasJournalReason at hJ ⊢
          simp only [] at hJ
          by_cases hw0 : why = ""
          · rw [if_pos hw0] at hJ; exact hJ
          · rw [if_neg hw0, List.any_append] at hJ
            rcases Bool.or_eq_true _ _ ▸ hJ with hold | hnew
            · exact hold
            · exfalso
              simp only [List.any_cons, List.any_nil, Bool.or_false] at hnew
              rw [hwhy] at hnew
              exact Bool.noConfusion hnew
        have := hm q hq hqJ
        rw [← hfq]
        simp only []
        omega
      · rw [if_neg h2] at hfq
        rw [← hfq]
        exact hm q hq (hfq ▸ hJ)
    · rw [if_neg h1] at hp
      rcases List.mem_append.mp hp with hpm | hps
      · exact hm p hpm hJ
      · exfalso
        have hpe : p = (cat, ⟨w, if why = "" then [] else [why]⟩) := by simpa using hps
        rw [hpe] at hJ
        unfold hasJournalReason at hJ
        simp only [] at hJ
        by_cases hw0 : why = ""
        · rw [if_pos hw0] at hJ; exact Bool.noConfusion hJ
        · rw [if_neg hw0] at hJ
          simp only [List.any_cons, List.any_nil, Bool.or_false] at hJ
          rw [hwhy] at hJ
          exact Bool.noConfusion hJ

theorem foldl_preserve {β : Type} {P : ScoreMap → Prop} (f : ScoreMap → β → ScoreMap)
    (hstep : ∀ m b, P m → P (f m b)) :
    ∀ (l : List β) (m : ScoreMap), P m → P (l.foldl f m) := by
  intro l
  induction l with
  | nil => intro m hm; exact hm
  | cons b bs ih => intro m hm; exact ih (f m b) (hstep m b hm)

theorem collectScores_journalScored (R : Rules) (t : Toks) :
    JournalScored (collectScores R t) := by
  unfold collectScores
  apply foldl_preserve
  · intro m r hm
    by_cases ht : r.test t.hay = true
    · rw [if_pos ht]
      exact journalScored_addScore_nonJ r.cat _ W.K (journal_not_prefix_kw r.src) hm
    · rw [if_neg ht]; exact hm
  · show JournalScored (if _ then _ else _)
    have hs1 : JournalScored (if t.doiPre ≠ "" then
        R.doiHints.foldl
          (fun m r => if r.test t.doiPre then addScore m r.cat W.D ("doi:" ++ t.doiPre) else m)
          (R.tokens.foldl
            (fun m r => if r.test t.hay then addScore m r.cat W.J ("journal:" ++ r.src) else m) [])
      else
        R.tokens.foldl
          (fun m r => if r.test t.hay then addScore m r.cat W.J ("journal:" ++ r.src) else m) []) := by
      have hs0 : JournalScored
          (R.tokens.foldl
            (fun m r => if r.test t.hay then addScore m r.cat W.J ("journal:" ++ r.src) else m) []) := by
        apply foldl_preserve
        · intro m r hm
          by_cases ht : r.test t.hay = true
          · rw [if_pos ht]
            exact journalScored_addScore_J r.cat _ hm
          · rw [if_neg ht]; exact hm
        · intro p hp _; exact absurd hp (List.not_mem_nil p)
      by_cases hd : t.doiPre ≠ ""
      · rw [if_pos hd]
        apply foldl_preserve _ _ _ _ hs0
        intro m r hm
        by_cases ht : r.test t.doiPre = true
        · rw [if_pos ht]
          exact journalScored_addScore_nonJ r.cat _ W.D (journal_not_prefix_doi t.doiPre) hm
        · rw [if_neg ht]; exact hm
      · rw [if_neg hd]; exact hs0
    by_cases ha : (if t.authors ≠ "" then t.authors else t.hay) ≠ ""
    · rw [if_pos ha]
      apply foldl_preserve _ _ _ _ hs1
      intro m r hm
      by_cases ht : r.test (if t.authors ≠ "" then t.authors else t.hay) = true
      · rw [if_pos ht]
        exact journalScored_addScore_nonJ r.cat _ W.A (journal_not_prefix_author r.src) hm
      · rw [if_neg ht]; exact hm
    · rw [if_neg ha]; exact hs1

/-- C3: whenever two or more categories are tied for the top score in the
score map produced by the scorer and exactly one of the tied categories
has at least one venue/journal-tier match in its provenance, the resolver
`pickBest` returns that venue-tier-matched category.  (The confidence gate
cannot intervene: by `collectScores_journalScored` a journal-tier match
contributes weight `W.J = 3 ≥ MIN_CONFIDENCE`.) -/
theorem tie_break_prefers_journal (R : Rules) (t : Toks) (c : String) (e : Entry)
    (hmem : (c, e) ∈ collectScores R t)
    (hJ : hasJournalReason (c, e) = true)
    (htop : ∀ p ∈ collectScores R t, p.2.score ≤ e.score)
    (htied : 2 ≤ ((collectScores R t).filter
        (fun p => p.2.score == e.score)).length)
    (huniq : ((collectScores R t).filter
        (fun p => hasJournalReason p && p.2.score == e.score)).length = 1) :
    (pickBest (collectScores R t)).category = c := by
  have hne : collectScores R t ≠ [] := by
    intro hnil; rw [hnil] at hmem; exact List.not_mem_nil _ hmem
  unfold pickBest
  rw [if_neg (fun hh => hne (List.isEmpty_iff.mp hh))]
  cases hsort : List.insertionSort scoreDesc (collectScores R t) with
  | nil => exact absurd hsort (insertionSort_ne_nil hne)
  | cons p rest =>
    have hpmem : p ∈ collectScores R t :=
      (List.perm_insertionSort scoreDesc _).mem_iff.mp (by rw [hsort]; simp)
    have hple : p.2.score ≤ e.score := htop p hpmem
    have hep : e.score ≤ p.2.score := head_scoreDesc_max hsort (c, e) hmem
    have htopeq : p.2.score = e.score := Nat.le_antisymm hple hep
    have h3 : 3 ≤ e.score := by
      have := collectScores_journalScored R t (c, e) hmem hJ
      exact this
    simp only [List.headD_cons, MIN_CONFIDENCE]
    rw [if_neg (by omega : ¬ p.2.score < 2)]
    have hperm1 : ((p :: rest).filter (fun q => q.2.score == p.2.score)).Perm
        ((collectScores R t).filter (fun q => q.2.score == p.2.score)) := by
      rw [← hsort]
      exact (List.perm_insertionSort scoreDesc _).filter _
    have hlen2 : 2 ≤ ((p :: rest).filter (fun q => q.2.score == p.2.score)).length := by
      rw [hperm1.length_eq, htopeq]
      exact htied
    rw [if_neg (by omega :
      ¬ ((p :: rest).filter (fun q => q.2.score == p.2.score)).length = 1)]
    have hperm2 : (((p :: rest).filter (fun q => q.2.score == p.2.score)).filter
        hasJournalReason).Perm
        ((collectScores R t).filter
          (fun q => hasJournalReason q && q.2.score == e.score)) := by
      rw [List.filter_filter, htopeq, ← hsort]
      exact (List.perm_insertionSort scoreDesc _).filter _
    have hwj1 : (((p :: rest).filter (fun q => q.2.score == p.2.score)).filter
        hasJournalReason).length = 1 := by
      rw [hperm2.length_eq]
      exact huniq
    rw [if_pos hwj1]
    obtain ⟨x, hx⟩ := List.length_eq_one.mp hwj1
    have hfil : (collectScores R t).filter
        (fun q => hasJournalReason q && q.2.score == e.score) = [x] :=
      List.perm_singleton.mp (hx ▸ hperm2.symm)
    have hce : (c, e) ∈ ((collectScores R t).filter
        (fun q => hasJournalReason q && q.2.score == e.score)) :=
      List.mem_filter.mpr ⟨hmem, by rw [hJ]; simp⟩
    rw [hfil] at hce
    have hxce : x = (c, e) := by
      rcases List.mem_singleton.mp hce with h
      exact h.symm
    rw [hx, hxce]
    rfl

/-- Witness for `tie_break_prefers_journal`: two categories tie at score
4 — `CatA` via a journal-tier match (3) plus a DOI hint (1), `CatB` via
two keyword matches (2+2) — and exactly one of them has a journal reason,
so the resolver picks `CatA`. -/
theorem tie_break_prefers_journal_witness :
    (pickBest (collectScores
      ⟨[⟨fun s => containsSubL ("foo".data) s.data, "foo", "CatA"⟩],
       [⟨fun s => s == "10.1002", "hint", "CatA"⟩],
       [],
       [⟨fun s => containsSubL ("bar".data) s.data, "bar", "CatB"⟩,
        ⟨fun s => containsSubL ("baz".data) s.data, "baz", "CatB"⟩]⟩
      (tokensFromInput (.row (.record
        ⟨some "10.1002/aaa", none, some "foo bar baz", none, none⟩))))).category = "CatA" :=
  tie_break_prefers_journal _ _ "CatA" ⟨4, ["journal:foo", "doi:10.1002"]⟩
    (by decide) (by decide) (by decide) (by decide) (by decide)

/-! ### Properties of the first-occurrence deduplication -/

theorem findIdx_map' {α β : Type} (f : α → β) (p : β → Bool) :
    ∀ l : List α, (l.map f).findIdx p = l.findIdx (fun a => p (f a)) := by
  intro l
  induction l with
  | nil => rfl
  | cons a l ih => simp [List.findIdx_cons, ih]

theorem mem_dedupByFirst {α : Type} {key : α → String} {l : List α} {x : α} :
    x ∈ dedupByFirst key l ↔
      ∃ i, l[i]? = some x ∧ l.findIdx (fun z => key z == key x) = i := by
  unfold dedupByFirst
  constructor
  · intro hx
    obtain ⟨q, hq, hsnd⟩ := List.mem_map.mp hx
    obtain ⟨hqe, hqp⟩ := List.mem_filter.mp hq
    refine ⟨q.1, ?_, ?_⟩
    · rw [← hsnd]
      exact List.mem_enum_iff_getElem?.mp hqe
    · rw [← hsnd]
      simpa using hqp
  · rintro ⟨i, hget, hfind⟩
    apply List.mem_map.mpr
    refine ⟨(i, x), List.mem_filter.mpr ⟨List.mem_enum_iff_getElem?.mpr hget, ?_⟩, rfl⟩
    simp [hfind]

theorem dedupByFirst_sublist {α : Type} (key : α → String) (l : List α) :
    (dedupByFirst key l).Sublist l := by
  unfold dedupByFirst
  have h2 := (List.filter_sublist
    (p := fun p => l.findIdx (fun z => key z == key p.2) == p.1) l.enum).map Prod.snd
  rw [List.enum_map_snd] at h2
  exact h2

theorem enum_nodup {α : Type} (l : List α) : l.enum.Nodup :=
  (List.nodup_enum_map_fst l).of_map _

theorem dedupByFirst_keys_nodup {α : Type} (key : α → String) (l : List α) :
    ((dedupByFirst key l).map key).Nodup := by
  unfold dedupByFirst
  rw [List.map_map]
  apply List.Nodup.map_on ?_ ((enum_nodup l).filter _)
  intro x hx y hy hk
  obtain ⟨hxe, hxp⟩ := List.mem_filter.mp hx
  obtain ⟨hye, hyp⟩ := List.mem_filter.mp hy
  have hxi : l.findIdx (fun z => key z == key x.2) = x.1 := by simpa using hxp
  have hyi : l.findIdx (fun z => key z == key y.2) = y.1 := by simpa using hyp
  have hkeq : key x.2 = key y.2 := hk
  have hij : x.1 = y.1 := by
    rw [← hxi, ← hyi]
    congr 1
    funext z
    rw [hkeq]
  have hgx := List.mem_enum_iff_getElem?.mp hxe
  have hgy := List.mem_enum_iff_getElem?.mp hye
  rw [hij] at hgx
  rw [hgx] at hgy
  exact Prod.ext hij (Option.some.inj hgy)

theorem dedupByFirst_nodup {α : Type} (key : α → String) (l : List α) :
    (dedupByFirst key l).Nodup :=
  (dedupByFirst_keys_nodup key l).of_map _

theorem firstOcc_mem_dedupByFirst {α : Type} (key : α → String) {l : List α} {j : Nat}
    (hj : j < l.length)
    (hfirst : ∀ i (hi : i < j), key (l.get ⟨i, Nat.lt_trans hi hj⟩) ≠ key (l.get ⟨j, hj⟩)) :
    l.get ⟨j, hj⟩ ∈ dedupByFirst key l := by
  apply mem_dedupByFirst.mpr
  refine ⟨j, by simp [List.getElem?_eq_getElem hj], ?_⟩
  rw [List.findIdx_eq hj]
  constructor
  · simp
  · intro i hi
    have := hfirst i hi
    simpa using this

theorem dedupByFirst_map {α β : Type} (key : β → String) (f : α → β) (l : List α) :
    dedupByFirst key (l.map f) = (dedupByFirst (fun a => key (f a)) l).map f := by
  unfold dedupByFirst
  rw [List.enum_map, List.filter_map, List.map_map, List.map_map]
  have hpred : ∀ q : Nat × α,
      ((fun p => (l.map f).findIdx (fun z => key z == key p.2) == p.1) ∘ Prod.map id f) q =
      (fun p => l.findIdx (fun z => key (f z) == key (f p.2)) == p.1) q := by
    intro q
    simp only [Function.comp, Prod.map, id]
    rw [findIdx_map']
  rw [List.filter_congr (fun q _ => hpred q)]
  rfl

/-! ### Alignment of the batch functions over the deduplicated rows -/

theorem classifyAll_eq (R : Rules) (rows : List Row) :
    classifyAll R rows = (dedupByFirst rowKey rows).map
      (fun row => ⟨inferTopic R (.row row), row⟩) := by
  unfold classifyAll
  rw [dedupByFirst_map]

theorem classifyWithExplain_eq (R : Rules) (rows : List Row) :
    _classifyWithExplain R rows = (dedupByFirst rowKey rows).map (richify R) := by
  unfold _classifyWithExplain
  rw [dedupByFirst_map]
  rfl

theorem richify_key (R : Rules) (row : Row) : (richify R row).key = rowKey row := rfl

theorem inferTopic_eq_picked (R : Rules) (row : Row)
    (h : (tokensFromInput (.row row)).hay ≠ "") :
    inferTopic R (.row row) = (richify R row).picked := by
  unfold inferTopic
  rw [if_neg h]
  rfl

theorem inferTopic_other_of_empty_hay (R : Rules) (row : Row)
    (h : (tokensFromInput (.row row)).hay = "") : inferTopic R (.row row) = "Other" := by
  unfold inferTopic
  rw [if_pos h]

/-- C6: `classifyAll` deduplicates its input by the composite key `rowKey`
(for record rows the lower-cased join of year and the first non-empty of
authors/title/url; for string rows the lower-cased string with a trailing
` open` stripped), keeping only the first occurrence in input order: the
output's keys are pairwise distinct (so of two equal-keyed inputs at most
one survives, even when other fields differ), the output rows form a
subsequence of the input, and every row that is the first occurrence of
its key appears in the output with its inferred topic. -/
theorem classifyAll_dedup (R : Rules) (rows : List Row) :
    ((classifyAll R rows).map (fun x => rowKey x.row)).Nodup ∧
    ((classifyAll R rows).map (fun x => x.row)).Sublist rows ∧
    (∀ j, (hj : j < rows.length) →
      (∀ i, i < j → rowKey (rows.getD i (.str "")) ≠ rowKey (rows.getD j (.str ""))) →
      (⟨inferTopic R (.row (rows.getD j (.str ""))), rows.getD j (.str "")⟩ : Labeled) ∈
        classifyAll R rows) := by
  refine ⟨?_, ?_, ?_⟩
  · rw [classifyAll_eq, List.map_map]
    exact dedupByFirst_keys_nodup rowKey rows
  · rw [classifyAll_eq, List.map_map]
    have he : ((fun x : Labeled => x.row) ∘
        fun row => (⟨inferTopic R (.row row), row⟩ : Labeled)) = id := rfl
    rw [he, List.map_id]
    exact dedupByFirst_sublist rowKey rows
  · intro j hj hfirst
    rw [classifyAll_eq]
    apply List.mem_map.mpr
    rw [List.getD_eq_getElem rows (.str "") hj]
    refine ⟨rows.get ⟨j, hj⟩, ?_, rfl⟩
    apply firstOcc_mem_dedupByFirst rowKey hj
    intro i hi
    have h1 := hfirst i hi
    rw [List.getD_eq_getElem rows (.str "") (Nat.lt_trans hi hj),
      List.getD_eq_getElem rows (.str "") hj] at h1
    exact h1

/-- Witness for `classifyAll_dedup`: two records equal in year and
author text but differing in title and url share a key; a third differs.
The theorem is applied at the third row (a first occurrence). -/
theorem classifyAll_dedup_witness :
    ((classifyAll ⟨[], [], [], []⟩
        [.record ⟨none, some "A B", some "T1", none, some "2009"⟩,
         .record ⟨some "u2", some "A B", some "T2", none, some "2009"⟩,
         .record ⟨none, none, some "Z", none, some "2010"⟩]).map
      (fun x => rowKey x.row)).Nodup ∧
    ((classifyAll ⟨[], [], [], []⟩
        [.record ⟨none, some "A B", some "T1", none, some "2009"⟩,
         .record ⟨some "u2", some "A B", some "T2", none, some "2009"⟩,
         .record ⟨none, none, some "Z", none, some "2010"⟩]).map
      (fun x => x.row)).Sublist
        [.record ⟨none, some "A B", some "T1", none, some "2009"⟩,
         .record ⟨some "u2", some "A B", some "T2", none, some "2009"⟩,
         .record ⟨none, none, some "Z", none, some "2010"⟩] ∧
    (⟨inferTopic ⟨[], [], [], []⟩ (.row (.record ⟨none, none, some "Z", none, some "2010"⟩)),
        .record ⟨none, none, some "Z", none, some "2010"⟩⟩ : Labeled) ∈
      classifyAll ⟨[], [], [], []⟩
        [.record ⟨none, some "A B", some "T1", none, some "2009"⟩,
         .record ⟨some "u2", some "A B", some "T2", none, some "2009"⟩,
         .record ⟨none, none, some "Z", none, some "2010"⟩] := by
  have h := classifyAll_dedup ⟨[], [], [], []⟩
    [.record ⟨none, some "A B", some "T1", none, some "2009"⟩,
     .record ⟨some "u2", some "A B", some "T2", none, some "2009"⟩,
     .record ⟨none, none, some "Z", none, some "2010"⟩]
  exact ⟨h.1, h.2.1, h.2.2 2 (by decide) (by decide)⟩

/-! ### Shape of classifyAllBalanced -/

/-- The `others` list of `classifyAllBalanced`. -/
def balancedOthers (R : Rules) (rows : List Row) : List RichRow :=
  (_classifyWithExplain R rows).filter (fun r => r.picked == "Other")

/-- The `toFlip` list of `classifyAllBalanced`. -/
def balancedToFlip (R : Rules) (rows : List Row) (k : Nat) : List RichRow :=
  (List.insertionSort reassignDesc
    ((balancedOthers R rows).filter
      (fun r => decide (r.topAlt ≠ "Other") && decide (0 < altScore r)))).take
    (max 0 ((balancedOthers R rows).length - k))

theorem classifyAllBalanced_eq_map (R : Rules) (rows : List Row) (k : Nat) :
    classifyAllBalanced R rows k =
      (if (balancedOthers R rows).length ≤ k then
        (_classifyWithExplain R rows).map (fun r => ⟨r.picked, r.row⟩)
      else
        (_classifyWithExplain R rows).map (fun r =>
          if ((balancedToFlip R rows k).map (fun q => q.key)).contains r.key then
            ⟨r.topAlt, r.row⟩
          else ⟨r.picked, r.row⟩)) := rfl

theorem classifyAllBalanced_length (R : Rules) (rows : List Row) (k : Nat) :
    (classifyAllBalanced R rows k).length = (_classifyWithExplain R rows).length := by
  rw [classifyAllBalanced_eq_map]
  by_cases h : (balancedOthers R rows).length ≤ k
  · rw [if_pos h, List.length_map]
  · rw [if_neg h, List.length_map]

theorem rich_keys_nodup (R : Rules) (rows : List Row) :
    ((_classifyWithExplain R rows).map (fun r => r.key)).Nodup := by
  unfold _classifyWithExplain
  exact dedupByFirst_keys_nodup _ _

theorem rich_key_inj (R : Rules) (rows : List Row) {x y : RichRow}
    (hx : x ∈ _classifyWithExplain R rows) (hy : y ∈ _classifyWithExplain R rows)
    (h : x.key = y.key) : x = y :=
  List.inj_on_of_nodup_map (rich_keys_nodup R rows) hx hy h

theorem mem_toFlip_predR {R : Rules} {rows : List Row} {k : Nat} {y : RichRow}
    (hy : y ∈ balancedToFlip R rows k) :
    y ∈ _classifyWithExplain R rows ∧ y.picked = "Other" ∧
    y.topAlt ≠ "Other" ∧ 0 < altScore y := by
  unfold balancedToFlip at hy
  have hy1 := List.mem_of_mem_take hy
  have hy2 := (List.perm_insertionSort reassignDesc _).mem_iff.mp hy1
  obtain ⟨hyo, hyp⟩ := List.mem_filter.mp hy2
  obtain ⟨hyr, hypO⟩ := List.mem_filter.mp hyo
  rw [Bool.and_eq_true, decide_eq_true_eq, decide_eq_true_eq] at hyp
  exact ⟨hyr, by simpa using hypO, hyp.1, hyp.2⟩

theorem flipped_contains_iff {R : Rules} {rows : List Row} {k : Nat} {r : RichRow}
    (hr : r ∈ _classifyWithExplain R rows) :
    (((balancedToFlip R rows k).map (fun q => q.key)).contains r.key = true) ↔
      r ∈ balancedToFlip R rows k := by
  constructor
  · intro hc
    obtain ⟨k', hk', hbeq⟩ := List.contains_iff_exists_mem_beq.mp hc
    obtain ⟨y, hy, hky⟩ := List.mem_map.mp hk'
    have hkey : r.key = y.key := by
      rw [← hky] at hbeq
      simpa using hbeq
    have hyr : y ∈ _classifyWithExplain R rows := (mem_toFlip_predR hy).1
    have : r = y := rich_key_inj R rows hr hyr hkey
    rw [this]
    exact hy
  · intro hm
    exact List.contains_iff_exists_mem_beq.mpr
      ⟨r.key, List.mem_map.mpr ⟨r, hm, rfl⟩, by simp⟩

theorem predR_false_of_zeroSig (r : RichRow)
    (hz : ∀ p ∈ r.explain.breakdown, p.1 ≠ "Other" → p.2.score = 0) :
    (decide (r.topAlt ≠ "Other") && decide (0 < altScore r)) = false := by
  by_cases ht : r.topAlt = "Other"
  · simp [ht]
  · have h0 : altScore r = 0 := by
      unfold altScore
      cases hf : r.explain.breakdown.find? (fun p => p.1 == r.topAlt) with
      | none => rfl
      | some q =>
        have hq1 : q.1 = r.topAlt := by simpa using List.find?_some hf
        have hqm : q ∈ r.explain.breakdown := List.mem_of_find?_eq_some hf
        exact hz q hqm (by rw [hq1]; exact ht)
    simp [h0]

/-- C2: for every batch of rows and every cap, every record that the
single-record classification inside `classifyAllBalanced` resolves to
`"Other"` and whose score map contains no non-`"Other"` category with a
positive score is left in `"Other"` by `classifyAllBalanced`, no matter
how small the cap is. -/
theorem zero_signal_stays_other (R : Rules) (rows : List Row) (k i : Nat)
    (hi : i < (_classifyWithExplain R rows).length)
    (hp : ((_classifyWithExplain R rows).get ⟨i, hi⟩).picked = "Other")
    (hz : ∀ p ∈ ((_classifyWithExplain R rows).get ⟨i, hi⟩).explain.breakdown,
        p.1 ≠ "Other" → p.2.score = 0) :
    ((classifyAllBalanced R rows k).getD i ⟨"Other", .str ""⟩).topic = "Other" := by
  rw [classifyAllBalanced_eq_map]
  by_cases hc : (balancedOthers R rows).length ≤ k
  · rw [if_pos hc,
      List.getD_eq_getElem _ _ (by rw [List.length_map]; exact hi), List.getElem_map]
    exact hp
  · rw [if_neg hc,
      List.getD_eq_getElem _ _ (by rw [List.length_map]; exact hi), List.getElem_map]
    have hrmem : (_classifyWithExplain R rows)[i] ∈ _classifyWithExplain R rows :=
      List.getElem_mem hi
    have hnc : (((balancedToFlip R rows k).map (fun q => q.key)).contains
        (_classifyWithExplain R rows)[i].key) = false := by
      cases hcc : (((balancedToFlip R rows k).map (fun q => q.key)).contains
          (_classifyWithExplain R rows)[i].key) with
      | false => rfl
      | true =>
        exfalso
        have hm := (flipped_contains_iff hrmem).mp hcc
        have hpred := mem_toFlip_predR hm
        have hfalse := predR_false_of_zeroSig ((_classifyWithExplain R rows)[i]) hz
        rw [decide_eq_true hpred.2.2.1, decide_eq_true hpred.2.2.2] at hfalse
        simp at hfalse
    rw [if_neg (fun hcc => Bool.noConfusion (hnc ▸ hcc))]
    exact hp

/-- Witness for `zero_signal_stays_other`: with an empty rule table the
only record scores nothing, resolves to `"Other"`, and stays `"Other"`
even under cap 0. -/
theorem zero_signal_stays_other_witness :
    ((classifyAllBalanced ⟨[], [], [], []⟩
      [.record ⟨none, none, some "x", none, none⟩] 0).getD 0 ⟨"Other", .str ""⟩).topic =
      "Other" :=
  zero_signal_stays_other ⟨[], [], [], []⟩ [.record ⟨none, none, some "x", none, none⟩] 0 0
    (by decide) (by decide) (by decide)

/-! ### Counting facts for the rebalancing bound -/

theorem countP_split {α : Type} (p q : α → Bool) (l : List α) :
    List.countP p l =
      List.countP (fun a => p a && q a) l + List.countP (fun a => p a && !(q a)) l := by
  induction l with
  | nil => rfl
  | cons a l ih =>
    rw [List.countP_cons, List.countP_cons, List.countP_cons, ih]
    cases hp : p a <;> cases hq : q a <;> simp [hp, hq] <;> omega

theorem countP_erase_one {α : Type} [DecidableEq α] (p : α → Bool) (y : α) :
    ∀ {l : List α}, l.Nodup → y ∈ l → p y = true →
    List.countP (fun r => p r && !(decide (r = y))) l + 1 = List.countP p l := by
  intro l
  induction l with
  | nil => intro _ hy _; cases hy
  | cons a l ih =>
    intro hl hy hp
    rw [List.countP_cons, List.countP_cons]
    rcases List.mem_cons.mp hy with rfl | hyl
    · have hnotin : y ∉ l := (List.nodup_cons.mp hl).1
      have h2 : List.countP (fun r => p r && !(decide (r = y))) l = List.countP p l := by
        apply List.countP_congr
        intro x hx
        have hne : x ≠ y := fun h => hnotin (h ▸ hx)
        simp [hne]
      rw [h2, hp]
      simp
    · have ha : a ≠ y := fun h => (List.nodup_cons.mp hl).1 (h ▸ hyl)
      have h1 : (p a && !(decide (a = y))) = p a := by simp [ha]
      rw [h1]
      have hrec := ih (List.nodup_cons.mp hl).2 hyl hp
      cases hpa : p a <;> simp [hpa] <;> omega

theorem countP_without_sub {α : Type} [DecidableEq α] (p : α → Bool) :
    ∀ (t : List α) {l : List α}, l.Nodup → t.Nodup → (∀ y ∈ t, y ∈ l ∧ p y = true) →
    List.countP (fun r => p r && !(decide (r ∈ t))) l + t.length = List.countP p l := by
  intro t
  induction t with
  | nil =>
    intro l _ _ _
    simp
  | cons y t ih =>
    intro l hl ht hsub
    have hstep : List.countP (fun r => p r && !(decide (r ∈ y :: t))) l =
        List.countP (fun r => (p r && !(decide (r ∈ t))) && !(decide (r = y))) l := by
      apply List.countP_congr
      intro x _
      by_cases h1 : x = y <;> by_cases h2 : x ∈ t <;>
        simp [h1, h2, List.mem_cons]
    have hy := hsub y (List.mem_cons_self y t)
    have hyt : y ∉ t := (List.nodup_cons.mp ht).1
    have h1 : (fun r => p r && !(decide (r ∈ t))) y = true := by
      simp [hy.2, hyt]
    have hdrop := countP_erase_one (fun r => p r && !(decide (r ∈ t))) y hl hy.1 h1
    have hrec := ih hl (List.nodup_cons.mp ht).2
      (fun z hz => hsub z (List.mem_cons_of_mem y hz))
    simp only [] at hdrop
    rw [hstep]
    simp only [List.length_cons]
    omega

/-! ### The score map never duplicates a key -/

/-- Invariant: the category keys of a score map are pairwise distinct
(JS object keys are unique by construction). -/
def KeysNodup (m : ScoreMap) : Prop := (m.map Prod.fst).Nodup

theorem addScore_keysNodup (cat why : String) (w : Nat) {m : ScoreMap}
    (h : KeysNodup m) : KeysNodup (addScore m cat w why) := by
  unfold addScore KeysNodup
  by_cases h0 : cat = ""
  · rw [if_pos h0]; exact h
  · rw [if_neg h0]
    by_cases h1 : m.any (fun p => p.1 = cat) = true
    · rw [if_pos h1, List.map_map]
      have he : ∀ p ∈ m, (Prod.fst ∘ fun p : String × Entry =>
          if p.1 = cat then
            (p.1, (⟨p.2.score + w,
              if why = "" then p.2.reasons else p.2.reasons ++ [why]⟩ : Entry))
          else p) p = Prod.fst p := by
        intro p _
        by_cases hp : p.1 = cat <;> simp [hp]
      rw [List.map_congr_left he]
      exact h
    · rw [if_neg h1, List.map_append]
      refine List.nodup_append.mpr ⟨h, List.nodup_singleton _, ?_⟩
      intro a ha hb
      have hacat : a = cat := by simpa using hb
      obtain ⟨p, hp, hfst⟩ := List.mem_map.mp ha
      apply h1
      apply List.any_eq_true.mpr
      refine ⟨p, hp, ?_⟩
      simp [hfst, hacat]

theorem collectScores_keysNodup (R : Rules) (t : Toks) :
    KeysNodup (collectScores R t) := by
  unfold collectScores
  apply foldl_preserve
  · intro m r hm
    by_cases ht : r.test t.hay = true
    · rw [if_pos ht]
      exact addScore_keysNodup r.cat _ W.K hm
    · rw [if_neg ht]; exact hm
  · show KeysNodup (if _ then _ else _)
    have hs1 : KeysNodup (if t.doiPre ≠ "" then
        R.doiHints.foldl
          (fun m r => if r.test t.doiPre then addScore m r.cat W.D ("doi:" ++ t.doiPre) else m)
          (R.tokens.foldl
            (fun m r => if r.test t.hay then addScore m r.cat W.J ("journal:" ++ r.src) else m) [])
      else
        R.tokens.foldl
          (fun m r => if r.test t.hay then addScore m r.cat W.J ("journal:" ++ r.src) else m) []) := by
      have hs0 : KeysNodup
          (R.tokens.foldl
            (fun m r => if r.test t.hay then addScore m r.cat W.J ("journal:" ++ r.src) else m) []) := by
        apply foldl_preserve
        · intro m r hm
          by_cases ht : r.test t.hay = true
          · rw [if_pos ht]
            exact addScore_keysNodup r.cat _ W.J hm
          · rw [if_neg ht]; exact hm
        · exact List.nodup_nil
      by_cases hd : t.doiPre ≠ ""
      · rw [if_pos hd]
        apply foldl_preserve _ _ _ _ hs0
        intro m r hm
        by_cases ht : r.test t.doiPre = true
        · rw [if_pos ht]
          exact addScore_keysNodup r.cat _ W.D hm
        · rw [if_neg ht]; exact hm
      · rw [if_neg hd]; exact hs0
    by_cases ha : (if t.authors ≠ "" then t.authors else t.hay) ≠ ""
    · rw [if_pos ha]
      apply foldl_preserve _ _ _ _ hs1
      intro m r hm
      by_cases ht : r.test (if t.authors ≠ "" then t.authors else t.hay) = true
      · rw [if_pos ht]
        exact addScore_keysNodup r.cat _ W.A hm
      · rw [if_neg ht]; exact hm
    · rw [if_neg ha]; exact hs1

/-! ### A positive non-Other score forces a reassignable alternative -/

theorem bestNonOther_find_pos {bd : ScoreMap} (hkeys : (bd.map Prod.fst).Nodup)
    {p : String × Entry} (hp : p ∈ bd) (hne : p.1 ≠ "Other") (hpos : 0 < p.2.score) :
    bestNonOther bd ≠ "Other" ∧
      0 < (match bd.find? (fun q => q.1 == bestNonOther bd) with
           | some q => q.2.score
           | none => 0) := by
  have hperm : (rankScores bd).Perm bd := List.perm_insertionSort _ _
  have hpr : p ∈ rankScores bd := hperm.mem_iff.mpr hp
  have hpf : p ∈ (rankScores bd).filter (fun q => decide (q.1 ≠ "Other")) :=
    List.mem_filter.mpr ⟨hpr, by simpa using hne⟩
  cases hF : (rankScores bd).filter (fun q => decide (q.1 ≠ "Other")) with
  | nil => rw [hF] at hpf; cases hpf
  | cons x F =>
    have hbno : bestNonOther bd = x.1 := by
      unfold bestNonOther
      rw [hF]
    have hxmem : x ∈ (rankScores bd).filter (fun q => decide (q.1 ≠ "Other")) := by
      rw [hF]; exact List.mem_cons_self x F
    obtain ⟨hxr, hxne⟩ := List.mem_filter.mp hxmem
    have hxne1 : x.1 ≠ "Other" := by simpa using hxne
    have hsorted : List.Sorted scoreDesc (rankScores bd) := List.sorted_insertionSort _ _
    have hsF : List.Sorted scoreDesc
        ((rankScores bd).filter (fun q => decide (q.1 ≠ "Other"))) :=
      List.Pairwise.sublist (List.filter_sublist _) hsorted
    rw [hF] at hsF
    have hpf2 : p ∈ x :: F := by rw [hF] at hpf; exact hpf
    have hge : p.2.score ≤ x.2.score := by
      rcases List.mem_cons.mp hpf2 with heq | hpF
      · exact Nat.le_of_eq (by rw [heq])
      · exact List.rel_of_sorted_cons hsF p hpF
    have hxpos : 0 < x.2.score := Nat.lt_of_lt_of_le hpos hge
    have hxbd : x ∈ bd := hperm.mem_iff.mp hxr
    refine ⟨by rw [hbno]; exact hxne1, ?_⟩
    cases hfind : bd.find? (fun q => q.1 == bestNonOther bd) with
    | none =>
      exfalso
      have hnone := List.find?_eq_none.mp hfind x hxbd
      apply hnone
      rw [hbno]
      exact beq_self_eq_true x.1
    | some q =>
      have hq1 : q.1 = bestNonOther bd := by
        have := List.find?_some hfind
        simpa using this
      have hqbd : q ∈ bd := List.mem_of_find?_eq_some hfind
      have hqx : q = x := List.inj_on_of_nodup_map hkeys hqbd hxbd (by rw [hq1, hbno])
      rw [hqx]
      exact hxpos

theorem richify_breakdown (R : Rules) (row : Row) :
    (richify R row).explain.breakdown =
      List.insertionSort scoreDesc (collectScores R (tokensFromInput (.row row))) := rfl

theorem richify_topAlt (R : Rules) (row : Row) :
    (richify R row).topAlt = bestNonOther (richify R row).explain.breakdown := rfl

theorem richify_breakdown_keys_nodup (R : Rules) (row : Row) :
    ((richify R row).explain.breakdown.map Prod.fst).Nodup := by
  rw [richify_breakdown]
  exact ((List.perm_insertionSort scoreDesc _).map Prod.fst).nodup_iff.mpr
    (collectScores_keysNodup R (tokensFromInput (.row row)))

theorem altScore_pos_of_signal {R : Rules} {row : Row} {p : String × Entry}
    (hp : p ∈ (richify R row).explain.breakdown) (hne : p.1 ≠ "Other")
    (hpos : 0 < p.2.score) :
    (richify R row).topAlt ≠ "Other" ∧ 0 < altScore (richify R row) := by
  have h := bestNonOther_find_pos (richify_breakdown_keys_nodup R row) hp hne hpos
  refine ⟨?_, ?_⟩
  · rw [richify_topAlt]
    exact h.1
  · unfold altScore
    rw [richify_topAlt]
    exact h.2

theorem mem_rich_image {R : Rules} {rows : List Row} {r : RichRow}
    (hr : r ∈ _classifyWithExplain R rows) : ∃ row ∈ rows, richify R row = r := by
  unfold _classifyWithExplain at hr
  have hm : r ∈ rows.map (richify R) :=
    List.Sublist.mem hr (dedupByFirst_sublist _ _)
  obtain ⟨row, hrow, hre⟩ := List.mem_map.mp hm
  exact ⟨row, hrow, hre⟩

/-- On any enriched row the reassignability test of `classifyAllBalanced`
holds exactly when the score map carries a positive-score non-"Other"
category (the negation of the zero-signal condition). -/
theorem predR_eq_not_zeroSig (R : Rules) (row : Row) :
    (decide ((richify R row).topAlt ≠ "Other") && decide (0 < altScore (richify R row))) =
      !(decide (∀ p ∈ (richify R row).explain.breakdown,
          p.1 ≠ "Other" → p.2.score = 0)) := by
  by_cases hz : ∀ p ∈ (richify R row).explain.breakdown, p.1 ≠ "Other" → p.2.score = 0
  · rw [decide_eq_true hz, Bool.not_true]
    exact predR_false_of_zeroSig _ hz
  · rw [decide_eq_false hz, Bool.not_false]
    push_neg at hz
    obtain ⟨p, hp, hne, hnz⟩ := hz
    have h := altScore_pos_of_signal hp hne (Nat.pos_of_ne_zero hnz)
    rw [decide_eq_true h.1, decide_eq_true h.2]
    rfl

/-- C4: for every rule table, every batch of rows and every cap `k`, the
number of rows labeled `"Other"` in the output of `classifyAllBalanced`
is at most the maximum of `k` and the number of deduplicated rows that
resolve to `"Other"` with no non-`"Other"` category of positive score in
their score map (the zero-signal rows, which are never reassignable). -/
theorem balanced_other_bound (R : Rules) (rows : List Row) (k : Nat) :
    (classifyAllBalanced R rows k).countP (fun x => x.topic == "Other") ≤
      max k ((_classifyWithExplain R rows).countP (fun r =>
        (r.picked == "Other") &&
          decide (∀ p ∈ r.explain.breakdown, p.1 ≠ "Other" → p.2.score = 0))) := by
  rw [classifyAllBalanced_eq_map]
  by_cases hc : (balancedOthers R rows).length ≤ k
  · rw [if_pos hc, List.countP_map]
    have he : ((fun x : Labeled => x.topic == "Other") ∘
        fun r : RichRow => (⟨r.picked, r.row⟩ : Labeled)) =
        fun r : RichRow => r.picked == "Other" := rfl
    rw [he]
    have ho : (_classifyWithExplain R rows).countP (fun r => r.picked == "Other") =
        (balancedOthers R rows).length := by
      unfold balancedOthers
      rw [List.countP_eq_length_filter]
    exact le_trans (le_of_eq ho) (le_trans hc (Nat.le_max_left k _))
  · rw [if_neg hc, List.countP_map]
    have hcongr : ∀ r ∈ _classifyWithExplain R rows,
        ((fun x : Labeled => x.topic == "Other") ∘
          fun r : RichRow =>
            if ((balancedToFlip R rows k).map (fun q => q.key)).contains r.key then
              (⟨r.topAlt, r.row⟩ : Labeled)
            else (⟨r.picked, r.row⟩ : Labeled)) r = true ↔
        ((r.picked == "Other") && !(decide (r ∈ balancedToFlip R rows k))) = true := by
      intro r hr
      simp only [Function.comp]
      by_cases hcc : ((balancedToFlip R rows k).map (fun q => q.key)).contains r.key = true
      · have hm := (flipped_contains_iff hr).mp hcc
        have hpred := mem_toFlip_predR hm
        rw [if_pos hcc, decide_eq_true hm]
        constructor
        · intro hfalse
          exact absurd (by simpa using hfalse) hpred.2.2.1
        · intro hfalse
          simp at hfalse
      · have hnm : r ∉ balancedToFlip R rows k := fun hm =>
          hcc ((flipped_contains_iff hr).mpr hm)
        rw [if_neg hcc, decide_eq_false hnm]
        simp
    rw [List.countP_congr hcongr]
    have hnodup : (_classifyWithExplain R rows).Nodup := by
      unfold _classifyWithExplain
      exact dedupByFirst_nodup _ _
    have htfN : (balancedToFlip R rows k).Nodup := by
      unfold balancedToFlip
      apply List.Sublist.nodup (List.take_sublist _ _)
      apply ((List.perm_insertionSort reassignDesc _).nodup_iff).mpr
      exact List.Nodup.filter _ (by
        unfold balancedOthers
        exact List.Nodup.filter _ hnodup)
    have hsub : ∀ y ∈ balancedToFlip R rows k,
        y ∈ _classifyWithExplain R rows ∧ (y.picked == "Other") = true := by
      intro y hy
      have h := mem_toFlip_predR hy
      exact ⟨h.1, beq_iff_eq.mpr h.2.1⟩
    have hcnt := countP_without_sub (fun r : RichRow => r.picked == "Other")
      (balancedToFlip R rows k) hnodup htfN hsub
    simp only [] at hcnt
    have hsplit := countP_split (fun r : RichRow => r.picked == "Other")
      (fun r : RichRow => decide (r.topAlt ≠ "Other") && decide (0 < altScore r))
      (_classifyWithExplain R rows)
    simp only [] at hsplit
    have hS : ((balancedOthers R rows).filter
        (fun r => decide (r.topAlt ≠ "Other") && decide (0 < altScore r))).length =
      (_classifyWithExplain R rows).countP
        (fun r => (r.picked == "Other") &&
          (decide (r.topAlt ≠ "Other") && decide (0 < altScore r))) := by
      unfold balancedOthers
      rw [← List.countP_eq_length_filter, List.countP_filter]
      apply List.countP_congr
      intro x _
      rw [Bool.and_comm]
    have hZ : (_classifyWithExplain R rows).countP
        (fun r => (r.picked == "Other") &&
          !(decide (r.topAlt ≠ "Other") && decide (0 < altScore r))) =
      (_classifyWithExplain R rows).countP
        (fun r => (r.picked == "Other") &&
          decide (∀ p ∈ r.explain.breakdown, p.1 ≠ "Other" → p.2.score = 0)) := by
      apply List.countP_congr
      intro x hx
      obtain ⟨row, hrow, hre⟩ := mem_rich_image hx
      rw [← hre, predR_eq_not_zeroSig, Bool.not_not]
    have hF : (balancedToFlip R rows k).length =
        min ((balancedOthers R rows).length - k)
          (((balancedOthers R rows).filter
            (fun r => decide (r.topAlt ≠ "Other") && decide (0 < altScore r))).length) := by
      unfold balancedToFlip
      rw [List.length_take, (List.perm_insertionSort reassignDesc _).length_eq]
      omega
    have ho : (balancedOthers R rows).length =
        (_classifyWithExplain R rows).countP (fun r => r.picked == "Other") := by
      unfold balancedOthers
      rw [List.countP_eq_length_filter]
    omega

/-! ### The frame property of the rebalancer -/

theorem inferTopic_ne_other_eq_picked (R : Rules) (row : Row)
    (h : inferTopic R (.row row) ≠ "Other") :
    inferTopic R (.row row) = (richify R row).picked := by
  by_cases hh : (tokensFromInput (.row row)).hay = ""
  · exact absurd (inferTopic_other_of_empty_hay R row hh) h
  · exact inferTopic_eq_picked R row hh

theorem inferTopic_other_of_picked_other (R : Rules) (row : Row)
    (h : (richify R row).picked = "Other") : inferTopic R (.row row) = "Other" := by
  by_cases hh : (tokensFromInput (.row row)).hay = ""
  · exact inferTopic_other_of_empty_hay R row hh
  · rw [inferTopic_eq_picked R row hh]
    exact h

theorem richify_row (R : Rules) (row : Row) : (richify R row).row = row := rfl

/-- Pointwise description of `classifyAll` and `classifyAllBalanced` at
every in-range index of the deduplicated row list: both carry the same
underlying row, the plain batch label is `inferTopic`, and the balanced
label is either the enriched row's `picked` or (only for a flipped row)
its non-`"Other"` alternative `topAlt` while `picked` is `"Other"`. -/
theorem balanced_pointwise (R : Rules) (rows : List Row) (k i : Nat)
    (hi : i < (dedupByFirst rowKey rows).length) :
    ((classifyAllBalanced R rows k).getD i ⟨"Other", .str ""⟩).row =
      (dedupByFirst rowKey rows)[i] ∧
    ((classifyAll R rows).getD i ⟨"Other", .str ""⟩).row =
      (dedupByFirst rowKey rows)[i] ∧
    ((classifyAll R rows).getD i ⟨"Other", .str ""⟩).topic =
      inferTopic R (.row (dedupByFirst rowKey rows)[i]) ∧
    (((classifyAllBalanced R rows k).getD i ⟨"Other", .str ""⟩).topic =
        (richify R (dedupByFirst rowKey rows)[i]).picked ∨
      (((classifyAllBalanced R rows k).getD i ⟨"Other", .str ""⟩).topic =
          (richify R (dedupByFirst rowKey rows)[i]).topAlt ∧
        (richify R (dedupByFirst rowKey rows)[i]).picked = "Other" ∧
        (richify R (dedupByFirst rowKey rows)[i]).topAlt ≠ "Other")) := by
  have hA : (classifyAll R rows).getD i ⟨"Other", .str ""⟩ =
      ⟨inferTopic R (.row (dedupByFirst rowKey rows)[i]),
        (dedupByFirst rowKey rows)[i]⟩ := by
    rw [classifyAll_eq,
      List.getD_eq_getElem _ _ (by rw [List.length_map]; exact hi),
      List.getElem_map]
  refine ⟨?_, by rw [hA], by rw [hA], ?_⟩ <;>
    rw [classifyAllBalanced_eq_map] <;>
    by_cases hc : (balancedOthers R rows).length ≤ k
  · rw [if_pos hc, classifyWithExplain_eq,
      List.getD_eq_getElem _ _ (by rw [List.length_map, List.length_map]; exact hi),
      List.getElem_map, List.getElem_map]
    rfl
  · rw [if_neg hc, classifyWithExplain_eq,
      List.getD_eq_getElem _ _ (by rw [List.length_map, List.length_map]; exact hi),
      List.getElem_map, List.getElem_map]
    by_cases hcc : (((balancedToFlip R rows k).map (fun q => q.key)).contains
        (richify R (dedupByFirst rowKey rows)[i]).key) = true
    · rw [if_pos hcc]
      rfl
    · rw [if_neg hcc]
      rfl
  · rw [if_pos hc, classifyWithExplain_eq,
      List.getD_eq_getElem _ _ (by rw [List.length_map, List.length_map]; exact hi),
      List.getElem_map, List.getElem_map]
    exact Or.inl rfl
  · rw [if_neg hc, classifyWithExplain_eq,
      List.getD_eq_getElem _ _ (by rw [List.length_map, List.length_map]; exact hi),
      List.getElem_map, List.getElem_map]
    by_cases hcc : (((balancedToFlip R rows k).map (fun q => q.key)).contains
        (richify R (dedupByFirst rowKey rows)[i]).key) = true
    · have hmem : richify R (dedupByFirst rowKey rows)[i] ∈ _classifyWithExplain R rows := by
        rw [classifyWithExplain_eq]
        exact List.mem_map.mpr ⟨(dedupByFirst rowKey rows)[i], List.getElem_mem hi, rfl⟩
      have hm := (flipped_contains_iff hmem).mp hcc
      have hpred := mem_toFlip_predR hm
      rw [if_pos hcc]
      exact Or.inr ⟨rfl, hpred.2.1, hpred.2.2.1⟩
    · rw [if_neg hcc]
      exact Or.inl rfl

/-- C5: `classifyAllBalanced` never changes the category of a row that
the plain batch classification (`classifyAll`, i.e. the single-record
classifier over the deduplicated rows) resolved to a non-`"Other"`
category: the output has the same length and the same underlying rows in
the same order as `classifyAll`, every index whose plain label is not
`"Other"` keeps exactly that label, and every index whose label differs
between the two outputs moved from `"Other"` to some non-`"Other"`
category, never the reverse. -/
theorem rebalance_frame (R : Rules) (rows : List Row) (k : Nat) :
    (classifyAllBalanced R rows k).length = (classifyAll R rows).length ∧
    (∀ i : Nat,
      ((classifyAllBalanced R rows k).getD i ⟨"Other", .str ""⟩).row =
        ((classifyAll R rows).getD i ⟨"Other", .str ""⟩).row) ∧
    (∀ i : Nat,
      ((classifyAll R rows).getD i ⟨"Other", .str ""⟩).topic ≠ "Other" →
      ((classifyAllBalanced R rows k).getD i ⟨"Other", .str ""⟩).topic =
        ((classifyAll R rows).getD i ⟨"Other", .str ""⟩).topic) ∧
    (∀ i : Nat,
      ((classifyAllBalanced R rows k).getD i ⟨"Other", .str ""⟩).topic ≠
          ((classifyAll R rows).getD i ⟨"Other", .str ""⟩).topic →
      ((classifyAll R rows).getD i ⟨"Other", .str ""⟩).topic = "Other" ∧
      ((classifyAllBalanced R rows k).getD i ⟨"Other", .str ""⟩).topic ≠ "Other") := by
  refine ⟨?_, ?_, ?_, ?_⟩
  · rw [classifyAllBalanced_length, classifyWithExplain_eq, classifyAll_eq,
      List.length_map, List.length_map]
  · intro i
    rcases Nat.lt_or_ge i (dedupByFirst rowKey rows).length with hi | hi
    · obtain ⟨h1, h2, _, _⟩ := balanced_pointwise R rows k i hi
      rw [h1, h2]
    · have hlA : (classifyAll R rows).length ≤ i := by
        rw [classifyAll_eq, List.length_map]; exact hi
      have hlB : (classifyAllBalanced R rows k).length ≤ i := by
        rw [classifyAllBalanced_length, classifyWithExplain_eq, List.length_map]; exact hi
      rw [List.getD_eq_default _ _ hlB, List.getD_eq_default _ _ hlA]
  · intro i hne
    rcases Nat.lt_or_ge i (dedupByFirst rowKey rows).length with hi | hi
    · obtain ⟨_, _, h3, h4⟩ := balanced_pointwise R rows k i hi
      rw [h3] at hne
      have hpi := inferTopic_ne_other_eq_picked R _ hne
      rcases h4 with hout | ⟨hout, hpO, htA⟩
      · rw [hout, h3, hpi]
      · exfalso
        rw [hpi] at hne
        exact hne hpO
    · exfalso
      apply hne
      have hlA : (classifyAll R rows).length ≤ i := by
        rw [classifyAll_eq, List.length_map]; exact hi
      rw [List.getD_eq_default _ _ hlA]
  · intro i hne
    rcases Nat.lt_or_ge i (dedupByFirst rowKey rows).length with hi | hi
    · obtain ⟨_, _, h3, h4⟩ := balanced_pointwise R rows k i hi
      rcases h4 with hout | ⟨hout, hpO, htA⟩
      · by_cases hb : ((classifyAll R rows).getD i ⟨"Other", .str ""⟩).topic = "Other"
        · refine ⟨hb, ?_⟩
          intro h0
          apply hne
          rw [h0, hb]
        · exfalso
          rw [h3] at hb
          have hpi := inferTopic_ne_other_eq_picked R _ hb
          apply hne
          rw [hout, h3, hpi]
      · have hbO : ((classifyAll R rows).getD i ⟨"Other", .str ""⟩).topic = "Other" := by
          rw [h3]
          exact inferTopic_other_of_picked_other R _ hpO
        refine ⟨hbO, ?_⟩
        rw [hout]
        exact htA
    · exfalso
      apply hne
      have hlA : (classifyAll R rows).length ≤ i := by
        rw [classifyAll_eq, List.length_map]; exact hi
      have hlB : (classifyAllBalanced R rows k).length ≤ i := by
        rw [classifyAllBalanced_length, classifyWithExplain_eq, List.length_map]; exact hi
      rw [List.getD_eq_default _ _ hlB, List.getD_eq_default _ _ hlA]

/-- Witness for `rebalance_frame`: a single record whose only signal is a
DOI-tier hint of weight 1 resolves to `"Other"` (below the confidence
floor) and is flipped by `classifyAllBalanced` under cap 0; the theorem's
last conjunct applied at index 0 shows the change goes from `"Other"` to
a non-`"Other"` category. -/
theorem rebalance_frame_witness :
    ((classifyAll ⟨[], [⟨fun s => s == "10.1055", "p", "CatA"⟩], [], []⟩
        [.record ⟨some "10.1055/xyz", none, none, none, none⟩]).getD 0
      ⟨"Other", .str ""⟩).topic = "Other" ∧
    ((classifyAllBalanced ⟨[], [⟨fun s => s == "10.1055", "p", "CatA"⟩], [], []⟩
        [.record ⟨some "10.1055/xyz", none, none, none, none⟩] 0).getD 0
      ⟨"Other", .str ""⟩).topic ≠ "Other" :=
  (rebalance_frame ⟨[], [⟨fun s => s == "10.1055", "p", "CatA"⟩], [], []⟩
    [.record ⟨some "10.1055/xyz", none, none, none, none⟩] 0).2.2.2 0 (by decide)

end FacPub
